import Mathlib

/-!
Verification of the layout core of pdfmake (docMeasure.js and
pageElementWriter.js): a shallow embedding of the measurement pass and the
paginated placement pass, together with theorems about the properties the
design document states.

Numbers are modelled as integers: every arithmetic operation the measured
properties depend on (addition and max) is exact on integers exactly as it
is on JavaScript floats.  The one division in the code (the bullet radius
of an unordered-list marker, gapSize.fontSize / 6, and the matching / 3
offset) feeds only the decorative geometry of the synthesized bullet, which
no computed width or height ever reads; integer division is used there and
agrees with the float division whenever the font size is a multiple of six.
A JavaScript value that is `undefined` or `NaN` in a numeric position is
modelled as `none : Option Int`; arithmetic on `none` is absorbing (as NaN
is) and comparisons involving `none` are false (as they are for NaN and
undefined).
-/

namespace Pdf

/-- Abbreviation for JavaScript numeric values including undefined and NaN
(both modelled as `none`, since the code never distinguishes them: both
propagate through arithmetic and make every comparison false). -/
abbrev JSNum := Option ℤ

/-- Addition on JS numeric values: undefined or NaN on either side yields NaN. -/
def jsAdd : JSNum → JSNum → JSNum
  | some a, some b => some (a + b)
  | _, _ => none

/-- The Math.max of two JS numeric values: NaN or undefined poisons the result. -/
def jsMax : JSNum → JSNum → JSNum
  | some a, some b => some (max a b)
  | _, _ => none

/-- JavaScript comparison a less-or-equal b: false unless both sides are
actual numbers.  Used to state the min-width/max-width ordering invariant. -/
def jsLe (a b : JSNum) : Prop := ∃ x y, a = some x ∧ b = some y ∧ x ≤ y

instance (a b : JSNum) : Decidable (jsLe a b) := by
  unfold jsLe
  cases a with
  | none => exact isFalse (by simp)
  | some x =>
    cases b with
    | none => exact isFalse (by simp)
    | some y =>
      by_cases h : x ≤ y
      · exact isTrue ⟨x, y, rfl, rfl, h⟩
      · exact isFalse (by simpa using h)

/-- The value of a node's style property: a single style name or an array of
style names. -/
inductive StyleRef where
  | one (s : String)
  | many (l : List String)
deriving DecidableEq

/-- Style names carried by a style reference, in declaration order (the JS
code writes `(node.style instanceof Array) ? node.style : [node.style]`). -/
def StyleRef.names : StyleRef → List String
  | .one s => [s]
  | .many l => l

/-- The string JavaScript produces when a style value is used as an object
key: a string is itself, an array is its elements joined with commas. -/
def StyleRef.jsKey : StyleRef → String
  | .one s => s
  | .many l => String.intercalate "," l

/-- JavaScript truthiness of a style value: the empty string is falsy,
arrays are always truthy. -/
def StyleRef.truthy : StyleRef → Bool
  | .one s => s ≠ ""
  | .many _ => true

/-- The value of a margin property before normalization: a single number, a
two-element array, or a four-element array (the shapes the design document
admits). -/
inductive MarginSpec where
  | num (n : ℤ)
  | pair (a b : ℤ)
  | quad (a b c d : ℤ)
deriving DecidableEq

/-- JavaScript truthiness of a margin value: the number zero is falsy,
arrays are always truthy. -/
def MarginSpec.truthy : MarginSpec → Bool
  | .num n => n ≠ 0
  | .pair _ _ => true
  | .quad _ _ _ _ => true

/-- A resolved four-sided margin: left, top, right, bottom. -/
abbrev Quad := ℤ × ℤ × ℤ × ℤ

/-- Normalization performed at the end of getNodeMargin: a number expands to
all four sides, a two-element array to left=right=first and
top=bottom=second, a four-element array is used as-is. -/
def normalizeMargin : MarginSpec → Quad
  | .num n => (n, n, n, n)
  | .pair a b => (a, b, a, b)
  | .quad a b c d => (a, b, c, d)

/-- A style dictionary entry; only its margin is inspected by this module
(all other style properties are consumed by the external style resolver and
text measurer, which are opaque here). -/
structure Style where
  margin : Option MarginSpec
deriving DecidableEq

/-- Gap size returned by sizeOfString: width, height, fontSize and decender
(spelling as in the source). -/
structure GapSize where
  width : ℤ
  height : ℤ
  fontSize : ℤ
  decender : ℤ
deriving DecidableEq

/-- Modelled from the spec: the external collaborators the measurement
engine calls into — the Text Measurer (buildInlines and sizeOfString of
textTools.js, not part of the sources under verification) and the raw
style-name-to-style-object mapping of the Style Resolver.  The text
measurer is reduced to the list of word widths it reports for a text run
under a given stack of active style names: per the spec the minimum width
is the tightest wrap and the maximum width the no-wrap width of the run. -/
structure Env where
  wordWidths : List String → String → List ℤ
  sizeOfString : List String → String → GapSize
  styleDict : String → Option Style
  columnGap : List String → Option ℤ

/-- Modelled from the spec: the minimum (tightest wrap) width reported by
buildInlines — the widest single word of the run. -/
def inlMin (env : Env) (stk : List String) (t : String) : ℤ :=
  (env.wordWidths stk t).foldl max 0

/-- Modelled from the spec: the maximum (no wrap) width reported by
buildInlines — the total width of the run. -/
def inlMax (env : Env) (stk : List String) (t : String) : ℤ :=
  (env.wordWidths stk t).foldl (· + ·) 0

/-- A canvas vector primitive.  The constructor `other` stands for a vector
whose type string is none of ellipse, rect, line, polyline: the switch in
measureCanvas ignores it. -/
inductive CVec where
  | ellipse (x y r1 r2 : ℤ)
  | rect (x y w h : ℤ)
  | line (x1 y1 x2 y2 : ℤ)
  | polyline (points : List (ℤ × ℤ))
  | other
deriving DecidableEq

/-- Whether the measureCanvas switch recognizes a vector's type. -/
def CVec.recognized : CVec → Bool
  | .other => false
  | _ => true

/-- One step of the measureCanvas bounding-box accumulation. -/
def canvasStep (wh : ℤ × ℤ) : CVec → ℤ × ℤ
  | .ellipse x y r1 r2 => (max wh.1 (x + r1), max wh.2 (y + r2))
  | .rect x y w h => (max wh.1 (x + w), max wh.2 (y + h))
  | .line x1 y1 x2 y2 => (max (max wh.1 x1) x2, max (max wh.2 y1) y2)
  | .polyline pts => pts.foldl (fun acc p => (max acc.1 p.1, max acc.2 p.2)) wh
  | .other => wh

/-- Bounding box computed by measureCanvas: fold of canvasStep starting from
w = 0, h = 0. -/
def canvasBBox (vs : List CVec) : ℤ × ℤ := vs.foldl canvasStep (0, 0)

/-- Synthesized list-item marker: for ordered lists a text marker (its
inlines modelled by the string handed to buildInlines), for unordered lists
a canvas with a single ellipse; its min and max width and height are pinned
to the gap size by buildMarker. -/
structure Marker where
  inlines : Option String
  mcanvas : Option (List CVec)
  minW : ℤ
  maxW : ℤ
  minH : ℤ
  maxH : ℤ
deriving DecidableEq

/-- User-facing properties of a node that this module reads: the style
reference, the explicit margin property, and the list-item counter
override. -/
structure Props where
  style : Option StyleRef := none
  margin : Option MarginSpec := none
  counter : Option String := none
deriving DecidableEq

/-- Annotations the measurement pass writes onto a node (underscore-prefixed
properties in the source).  A missing field is `none`; numeric fields use
`none` also for NaN. -/
structure Ann where
  margin : Option Quad := none
  minWidth : JSNum := none
  maxWidth : JSNum := none
  minHeight : JSNum := none
  maxHeight : JSNum := none
  inlines : Option String := none
  gap : Option ℤ := none
  gapSize : Option GapSize := none
  listMarker : Option Marker := none
deriving DecidableEq

/-- A table column width entry: either a bare number or string, or a width
descriptor object (possibly annotated by measureTable with the aggregated
column min and max width). -/
inductive WVal where
  | s (v : String)
  | n (v : ℤ)
deriving DecidableEq

/-- An entry of the table widths array: a raw bare value, or a descriptor
object carrying a width plus the aggregated column bounds once measured. -/
inductive WidthEntry where
  | raw (v : WVal)
  | desc (width : WVal) (mn mx : JSNum)
deriving DecidableEq

/-- The table widths property before and after normalization: absent, a
single bare value, or an array of entries. -/
inductive Widths where
  | absent
  | scalar (v : WVal)
  | list (ws : List WidthEntry)
deriving DecidableEq

/-- A document node.  `strN` and `arrN` are the bare-string and bare-array
shorthands expanded at the top of measureNode; `bad` is a node matching no
recognized variant, on which measureNode throws.  The table variant carries
its widths, body, and the table-level aggregated bounds (`node.table._minWidth`
and `node.table._maxWidth` in the source, which are distinct from the
node-level annotations in `Ann`). -/
inductive Node where
  | strN (s : String)
  | arrN (items : List Node)
  | columns (cols : List Node) (p : Props) (a : Ann)
  | stack (items : List Node) (p : Props) (a : Ann)
  | ul (items : List Node) (p : Props) (a : Ann)
  | ol (items : List Node) (p : Props) (a : Ann)
  | table (ws : Widths) (body : List (List Node)) (tmn tmx : JSNum) (p : Props) (a : Ann)
  | text (t : String) (p : Props) (a : Ann)
  | canvas (vs : List CVec) (p : Props) (a : Ann)
  | bad (p : Props) (a : Ann)

/-- Properties of a node (empty for the shorthand forms, which are plain
strings and arrays in JavaScript). -/
def Node.propsOf : Node → Props
  | .strN _ => {}
  | .arrN _ => {}
  | .columns _ p _ => p
  | .stack _ p _ => p
  | .ul _ p _ => p
  | .ol _ p _ => p
  | .table _ _ _ _ p _ => p
  | .text _ p _ => p
  | .canvas _ p _ => p
  | .bad p _ => p

/-- Annotations of a node (empty for the shorthand forms). -/
def Node.annOf : Node → Ann
  | .strN _ => {}
  | .arrN _ => {}
  | .columns _ _ a => a
  | .stack _ _ a => a
  | .ul _ _ a => a
  | .ol _ _ a => a
  | .table _ _ _ _ _ a => a
  | .text _ _ a => a
  | .canvas _ _ a => a
  | .bad _ a => a

/-- Whether a node is itself a nested list: the `!nextItem.ol && !nextItem.ul`
test of measureList (an empty item array is still truthy in JavaScript, so
the test is purely on the presence of the property). -/
def Node.isNestedList : Node → Bool
  | .ul _ _ _ => true
  | .ol _ _ _ => true
  | _ => false

/-- Store a list marker into a node's annotations (assignment to
`nextItem.listMarker`); a no-op on the shorthand forms, which never occur as
the result of measureNode. -/
def Node.setListMarker (mk : Marker) : Node → Node
  | .strN s => .strN s
  | .arrN items => .arrN items
  | .columns cols p a => .columns cols p { a with listMarker := some mk }
  | .stack items p a => .stack items p { a with listMarker := some mk }
  | .ul items p a => .ul items p { a with listMarker := some mk }
  | .ol items p a => .ol items p { a with listMarker := some mk }
  | .table ws body tmn tmx p a => .table ws body tmn tmx p { a with listMarker := some mk }
  | .text t p a => .text t p { a with listMarker := some mk }
  | .canvas vs p a => .canvas vs p { a with listMarker := some mk }
  | .bad p a => .bad p { a with listMarker := some mk }

/-- The style-name stack after styleStack.auto pushed a node's style
reference (the pushed names are popped again when the node's measurement
returns, so siblings see the same stack; the external resolver consuming
the stack is opaque, only the stack value is threaded through). -/
def pushStyle (stk : List String) : Option StyleRef → List String
  | some r => stk ++ r.names
  | none => stk

/-- The loop of getNodeMargin over the style array, iterated from the last
(most specific) entry to the first.  Faithful to the source: the loop body
looks up `styleDictionary[node.style]` — the whole style value as a key —
rather than the current element `styleName`, which the source assigns but
never uses; the iterated list only controls the number of attempts.  The
test `style && style.margin` skips falsy margins (the number zero). -/
def marginStyleLoop (env : Env) (key : String) : List String → Option MarginSpec
  | [] => none
  | _styleName :: rest =>
    match env.styleDict key with
    | some st =>
      match st.margin with
      | some m => if m.truthy then some m else marginStyleLoop env key rest
      | none => marginStyleLoop env key rest
    | none => marginStyleLoop env key rest

/-- Resolution of getNodeMargin: the explicit margin property if truthy,
else the style-dictionary lookup driven by the node's style value, then
normalization to four sides; a falsy result resolves to null. -/
def getNodeMargin (env : Env) (p : Props) : Option Quad :=
  let margin0 := p.margin
  let margin1 :=
    if margin0.elim false MarginSpec.truthy then margin0
    else
      match p.style with
      | some ref =>
        if ref.truthy then
          match marginStyleLoop env ref.jsKey ref.names.reverse with
          | some m => some m
          | none => margin0
        else margin0
      | none => margin0
  match margin1 with
  | some m => if m.truthy then some (normalizeMargin m) else none
  | none => none

/-- The extendMargins step of measureNode: when the resolved margin is
present, its left and right components are added to both bounds. -/
def extendW (m : Option Quad) (a : Ann) : Ann :=
  match m with
  | some q =>
    { a with
        minWidth := jsAdd a.minWidth (some (q.1 + q.2.2.1))
        maxWidth := jsAdd a.maxWidth (some (q.1 + q.2.2.1)) }
  | none => a

/-- Wrapping step of extendTableWidths: a bare number or string entry
becomes a width descriptor object; other entries are untouched. -/
def wrapWidth : WidthEntry → WidthEntry
  | .raw v => .desc v none none
  | .desc v mn mx => .desc v mn mx

/-- The bare-string branch of extendTableWidths: the value is wrapped into
a one-element array and then the last element is pushed repeatedly until
the array covers every column of the first body row (reading
`node.table.body[0].length` — a crash, hence `none`, when the body is
empty); finally the wrap loop turns every bare entry into a descriptor.
The replication loop, which pushes a copy of the array's last element while
the array is shorter than the first body row, starts from a one-element
array here, so it appends that many copies of the single starting value. -/
def extendBroadcast (v : String) (body : List (List Node)) : Option Widths :=
  match body with
  | [] => none
  | row0 :: _ =>
    let start := [WidthEntry.raw (.s v)]
    some (.list ((start ++ List.replicate (row0.length - start.length) (WidthEntry.raw (.s v))).map wrapWidth))

/-- Normalization of the widths array performed by extendTableWidths.  The
first step is a JavaScript truthiness test, `if (!node.table.widths)`: an
absent widths property, but equally the falsy values zero and the empty
string, are replaced by the bare string auto and so take the bare-string
broadcast branch with that value.  A truthy bare string is broadcast with
its own value.  A truthy (non-zero) bare number is left untouched: it is
neither a string, so it is not broadcast, nor an array, so the wrap loop
finds no length and does not run.  An array — always truthy, even when
empty — is never extended (the replication loop only runs in the
bare-string branch); its bare entries are merely wrapped into
descriptors. -/
def extendTableWidths (ws : Widths) (body : List (List Node)) : Option Widths :=
  match ws with
  | .absent => extendBroadcast "auto" body
  | .scalar (.s v) => if v = "" then extendBroadcast "auto" body else extendBroadcast v body
  | .scalar (.n v) => if v = 0 then extendBroadcast "auto" body else some (.scalar (.n v))
  | .list l => some (.list (l.map wrapWidth))

/-- Gap-string for an ordered list: the item count's decimal representation
with every character replaced by the digit nine (`replace(/./g, '9')`). -/
def nines (n : Nat) : String := String.mk (List.replicate (toString n).length '9')

/-- The marker string default `counter + '. '` is overridden by a truthy
item counter property (`nextItem.counter || marker`): the override replaces
the whole string, nothing is appended to it. -/
def counterValue (override : Option String) (dflt : String) : String :=
  match override with
  | some c => if c ≠ "" then c else dflt
  | none => dflt

/-- Construction of a synthesized list marker by buildMarker: for ordered
lists a text marker whose inlines are built from the given counter string;
for unordered lists a canvas with one ellipse whose radius is a sixth of
the gap's font size.  Both have min and max width pinned to the gap width
and min and max height pinned to the gap height. -/
def buildMarker (isOrd : Bool) (counterStr : String) (gap : GapSize) : Marker :=
  if isOrd then
    { inlines := some counterStr, mcanvas := none,
      minW := gap.width, maxW := gap.width, minH := gap.height, maxH := gap.height }
  else
    let radius := gap.fontSize / 6
    { inlines := none,
      mcanvas := some [CVec.ellipse radius (gap.height + gap.decender - gap.fontSize / 3) radius radius],
      minW := gap.width, maxW := gap.width, minH := gap.height, maxH := gap.height }

/-- Aggregation of measureVerticalContainer: starting from zero, the max of
the children's bound. -/
def aggMax (f : Node → JSNum) (items : List Node) : JSNum :=
  items.foldl (fun acc it => jsMax acc (f it)) (some 0)

/-- Aggregation of measureColumns: starting from zero, the sum of the
children's bound. -/
def aggSum (f : Node → JSNum) (items : List Node) : JSNum :=
  items.foldl (fun acc it => jsAdd acc (f it)) (some 0)

/-- Aggregation of measureList: starting from zero, the max over the items
of the item's bound plus the gap width. -/
def aggList (f : Node → JSNum) (gapW : ℤ) (items : List Node) : JSNum :=
  items.foldl (fun acc it => jsMax acc (jsAdd (f it) (some gapW))) (some 0)

/-- The bound of the cell in a given column of a row, as read by the
column aggregation of measureTable (undefined when the row is short). -/
def cellBound (f : Node → JSNum) (body : List (List Node)) (row col : Nat) : JSNum :=
  match body.get? row with
  | some r => match r.get? col with
    | some c => f c
    | none => none
  | none => none

/-- Column aggregation of measureTable: `widths[col]._minWidth` starts at
zero and takes the max over all rows of that row's cell bound in the
column. -/
def colAgg (f : Node → JSNum) (body : List (List Node)) (col : Nat) : JSNum :=
  body.foldl (fun acc r => jsMax acc (match r.get? col with
    | some c => f c
    | none => none)) (some 0)

/-- Per-column descriptor update of measureTable, walking the widths array
with its index: each of the first cols entries receives the aggregated
column bounds; entries beyond the column count are untouched. -/
def updateWE (body : List (List Node)) (cols : Nat) : Nat → List WidthEntry → List WidthEntry
  | _, [] => []
  | i, e :: rest =>
    (if i < cols then
      match e with
      | .raw v => WidthEntry.raw v
      | .desc v _ _ => WidthEntry.desc v (colAgg (fun n => n.annOf.minWidth) body i)
                                         (colAgg (fun n => n.annOf.maxWidth) body i)
     else e) :: updateWE body cols (i + 1) rest

/-- Per-column descriptor update of measureTable: entry `col` of the widths
array receives the aggregated column bounds; entries beyond the column
count are untouched. -/
def updateWidthEntries (body : List (List Node)) (cols : Nat) (wl : List WidthEntry) : List WidthEntry :=
  updateWE body cols 0 wl

/-- Table-level aggregation: the sum over the columns of the aggregated
column bound (`node.table._minWidth += node.table.widths[col]._minWidth`). -/
def tableAgg (f : Node → JSNum) (body : List (List Node)) (cols : Nat) : JSNum :=
  (List.range cols).foldl (fun acc i => jsAdd acc (colAgg f body i)) (some 0)

/-- Assembly of the measured table node from the normalized widths and the
measured body: each of the first cols width descriptors receives its
aggregated column bounds and the table-level bounds are their sums; a
widths value that is not an array (a bare number that escaped
normalization), or an array with fewer entries than columns, makes the
column loop read a property of undefined and throw.  Note the node-level
annotations receive only the resolved margin: measureTable stores the
aggregates on the inner table object, never on the node itself. -/
def finishTable (ws2 : Widths) (cols : Nat) (body2 : List (List Node))
    (p : Props) (a : Ann) (m : Option Quad) : Option Node :=
  match ws2 with
  | .list wl =>
    if cols ≤ wl.length then
      some (.table (.list (updateWidthEntries body2 cols wl)) body2
        (tableAgg (fun n => n.annOf.minWidth) body2 cols)
        (tableAgg (fun n => n.annOf.maxWidth) body2 cols)
        p (extendW m { a with margin := m }))
    else none
  | _ => if cols = 0 then
      some (.table ws2 body2 (some 0) (some 0) p (extendW m { a with margin := m }))
    else none

mutual

/-- The measurement dispatch of measureNode: shorthand expansion, margin
resolution, per-variant sizing, and the extendMargins epilogue.  A `none`
result models a thrown error: the explicit unrecognized-structure throw, or
a TypeError from reading a property of undefined (missing table cells,
missing width entries, an empty table body). -/
def measureNode (env : Env) (stk : List String) : Node → Option Node
  | .strN s =>
    let a : Ann := {}
    some (.text s {} (extendW none { a with
      margin := none
      inlines := some s
      minWidth := some (inlMin env stk s)
      maxWidth := some (inlMax env stk s) }))
  | .arrN items =>
    match measureNodes env stk items with
    | none => none
    | some items2 =>
      let a : Ann := {}
      some (.stack items2 {} (extendW none { a with
        margin := none
        minWidth := aggMax (fun n => n.annOf.minWidth) items2
        maxWidth := aggMax (fun n => n.annOf.maxWidth) items2 }))
  | .columns cols p a =>
    let stk2 := pushStyle stk p.style
    let m := getNodeMargin env p
    match measureNodes env stk2 cols with
    | none => none
    | some cols2 =>
      some (.columns cols2 p (extendW m { a with
        margin := m
        gap := env.columnGap stk2
        minWidth := aggSum (fun n => n.annOf.minWidth) cols2
        maxWidth := aggSum (fun n => n.annOf.maxWidth) cols2 }))
  | .stack items p a =>
    let stk2 := pushStyle stk p.style
    let m := getNodeMargin env p
    match measureNodes env stk2 items with
    | none => none
    | some items2 =>
      some (.stack items2 p (extendW m { a with
        margin := m
        minWidth := aggMax (fun n => n.annOf.minWidth) items2
        maxWidth := aggMax (fun n => n.annOf.maxWidth) items2 }))
  | .ul items p a =>
    let stk2 := pushStyle stk p.style
    let m := getNodeMargin env p
    let gap := env.sizeOfString stk2 "9. "
    match measureItems env stk2 false gap 1 items with
    | none => none
    | some items2 =>
      some (.ul items2 p (extendW m { a with
        margin := m
        gapSize := some gap
        minWidth := aggList (fun n => n.annOf.minWidth) gap.width items2
        maxWidth := aggList (fun n => n.annOf.maxWidth) gap.width items2 }))
  | .ol items p a =>
    let stk2 := pushStyle stk p.style
    let m := getNodeMargin env p
    let gap := env.sizeOfString stk2 (nines items.length ++ ". ")
    match measureItems env stk2 true gap 1 items with
    | none => none
    | some items2 =>
      some (.ol items2 p (extendW m { a with
        margin := m
        gapSize := some gap
        minWidth := aggList (fun n => n.annOf.minWidth) gap.width items2
        maxWidth := aggList (fun n => n.annOf.maxWidth) gap.width items2 }))
  | .table ws body _tmn _tmx p a =>
    match extendTableWidths ws body with
    | none => none
    | some ws2 =>
      match body.head? with
      | none => none
      | some row0 =>
        match measureRows env (pushStyle stk p.style) row0.length body with
        | none => none
        | some body2 => finishTable ws2 row0.length body2 p a (getNodeMargin env p)
  | .text t p a =>
    let stk2 := pushStyle stk p.style
    let m := getNodeMargin env p
    some (.text t p (extendW m { a with
      margin := m
      inlines := some t
      minWidth := some (inlMin env stk2 t)
      maxWidth := some (inlMax env stk2 t) }))
  | .canvas vs p a =>
    let m := getNodeMargin env p
    let wh := canvasBBox vs
    some (.canvas vs p (extendW m { a with
      margin := m
      minWidth := some wh.1
      maxWidth := some wh.1
      minHeight := some wh.2
      maxHeight := some wh.2 }))
  | .bad _ _ => none
termination_by structural n => n

/-- Child-list measurement shared by the stack and columns variants (the
source's indexed loops writing each measured child back in place). -/
def measureNodes (env : Env) (stk : List String) : List Node → Option (List Node)
  | [] => some []
  | x :: xs =>
    match measureNode env stk x with
    | none => none
    | some y =>
      match measureNodes env stk xs with
      | none => none
      | some ys => some (y :: ys)
termination_by structural xs => xs

/-- The item loop of measureList: every item is measured and the counter is
incremented for every item; an item that is not itself a nested list
receives a synthesized marker built from its counter override or the
default counter string.  The style stack passed to buildMarker is the clone
taken at the start of measureList, equal to the ambient stack, so only the
gap and counter string vary per item. -/
def measureItems (env : Env) (stk : List String) (isOrd : Bool) (gap : GapSize) :
    Nat → List Node → Option (List Node)
  | _, [] => some []
  | counter, it :: rest =>
    match measureNode env stk it with
    | none => none
    | some it2 =>
      let markerStr := toString counter ++ ". "
      let it3 :=
        if it2.isNestedList then it2
        else it2.setListMarker (buildMarker isOrd (counterValue it2.propsOf.counter markerStr) gap)
      match measureItems env stk isOrd gap (counter + 1) rest with
      | none => none
      | some rest2 => some (it3 :: rest2)
termination_by structural _ xs => xs

/-- Row traversal of measureTable's cell measurement. -/
def measureRows (env : Env) (stk : List String) (cols : Nat) :
    List (List Node) → Option (List (List Node))
  | [] => some []
  | row :: rest =>
    match measureCells env stk cols row with
    | none => none
    | some row2 =>
      match measureRows env stk cols rest with
      | none => none
      | some rest2 => some (row2 :: rest2)
termination_by structural xs => xs

/-- Measurement of the first `cols` cells of a row (the source iterates
columns zero to `body[0].length` exclusive; a missing cell is measured as
undefined, which throws).  Cells beyond the column count are left
unmeasured.  The source iterates column-major; since each cell is measured
independently of every other cell against the same environment, the
row-major traversal used here computes the same measured grid and the same
aggregates, and fails exactly when the source throws. -/
def measureCells (env : Env) (stk : List String) : Nat → List Node → Option (List Node)
  | 0, rest => some rest
  | _ + 1, [] => none
  | n + 1, c :: cs =>
    match measureNode env stk c with
    | none => none
    | some c2 =>
      match measureCells env stk n cs with
      | none => none
      | some cs2 => some (c2 :: cs2)
termination_by structural _ xs => xs

end

/-- Entry point measureDocument: measurement starts with an empty style
stack (the default style handling lives inside the opaque resolver). -/
def measureDocument (env : Env) (doc : Node) : Option Node :=
  measureNode env [] doc

/-! ### Unfolding equations for the mutual measurement functions

One equation per constructor, each holding definitionally; they are stated
once so that symbolic proofs can rewrite with them reliably. -/

theorem measureNode_strN (env : Env) (stk : List String) (s : String) :
    measureNode env stk (.strN s) =
      some (.text s {} (extendW none { ({} : Ann) with
        margin := none
        inlines := some s
        minWidth := some (inlMin env stk s)
        maxWidth := some (inlMax env stk s) })) := rfl

theorem measureNode_arrN (env : Env) (stk : List String) (items : List Node) :
    measureNode env stk (.arrN items) =
      (match measureNodes env stk items with
       | none => none
       | some items2 =>
         some (.stack items2 {} (extendW none { ({} : Ann) with
           margin := none
           minWidth := aggMax (fun n => n.annOf.minWidth) items2
           maxWidth := aggMax (fun n => n.annOf.maxWidth) items2 }))) := rfl

theorem measureNode_columns (env : Env) (stk : List String) (cols : List Node)
    (p : Props) (a : Ann) :
    measureNode env stk (.columns cols p a) =
      (match measureNodes env (pushStyle stk p.style) cols with
       | none => none
       | some cols2 =>
         some (.columns cols2 p (extendW (getNodeMargin env p) { a with
           margin := getNodeMargin env p
           gap := env.columnGap (pushStyle stk p.style)
           minWidth := aggSum (fun n => n.annOf.minWidth) cols2
           maxWidth := aggSum (fun n => n.annOf.maxWidth) cols2 }))) := rfl

theorem measureNode_stack (env : Env) (stk : List String) (items : List Node)
    (p : Props) (a : Ann) :
    measureNode env stk (.stack items p a) =
      (match measureNodes env (pushStyle stk p.style) items with
       | none => none
       | some items2 =>
         some (.stack items2 p (extendW (getNodeMargin env p) { a with
           margin := getNodeMargin env p
           minWidth := aggMax (fun n => n.annOf.minWidth) items2
           maxWidth := aggMax (fun n => n.annOf.maxWidth) items2 }))) := rfl

theorem measureNode_ul (env : Env) (stk : List String) (items : List Node)
    (p : Props) (a : Ann) :
    measureNode env stk (.ul items p a) =
      (match measureItems env (pushStyle stk p.style) false
          (env.sizeOfString (pushStyle stk p.style) "9. ") 1 items with
       | none => none
       | some items2 =>
         some (.ul items2 p (extendW (getNodeMargin env p) { a with
           margin := getNodeMargin env p
           gapSize := some (env.sizeOfString (pushStyle stk p.style) "9. ")
           minWidth := aggList (fun n => n.annOf.minWidth)
             (env.sizeOfString (pushStyle stk p.style) "9. ").width items2
           maxWidth := aggList (fun n => n.annOf.maxWidth)
             (env.sizeOfString (pushStyle stk p.style) "9. ").width items2 }))) := rfl

theorem measureNode_ol (env : Env) (stk : List String) (items : List Node)
    (p : Props) (a : Ann) :
    measureNode env stk (.ol items p a) =
      (match measureItems env (pushStyle stk p.style) true
          (env.sizeOfString (pushStyle stk p.style) (nines items.length ++ ". ")) 1 items with
       | none => none
       | some items2 =>
         some (.ol items2 p (extendW (getNodeMargin env p) { a with
           margin := getNodeMargin env p
           gapSize := some (env.sizeOfString (pushStyle stk p.style) (nines items.length ++ ". "))
           minWidth := aggList (fun n => n.annOf.minWidth)
             (env.sizeOfString (pushStyle stk p.style) (nines items.length ++ ". ")).width items2
           maxWidth := aggList (fun n => n.annOf.maxWidth)
             (env.sizeOfString (pushStyle stk p.style) (nines items.length ++ ". ")).width items2 }))) := rfl

theorem measureNode_table (env : Env) (stk : List String) (ws : Widths)
    (body : List (List Node)) (tmn tmx : JSNum) (p : Props) (a : Ann) :
    measureNode env stk (.table ws body tmn tmx p a) =
      (match extendTableWidths ws body with
       | none => none
       | some ws2 =>
         match body.head? with
         | none => none
         | some row0 =>
           match measureRows env (pushStyle stk p.style) row0.length body with
           | none => none
           | some body2 => finishTable ws2 row0.length body2 p a (getNodeMargin env p)) := rfl

theorem measureNode_text (env : Env) (stk : List String) (t : String)
    (p : Props) (a : Ann) :
    measureNode env stk (.text t p a) =
      some (.text t p (extendW (getNodeMargin env p) { a with
        margin := getNodeMargin env p
        inlines := some t
        minWidth := some (inlMin env (pushStyle stk p.style) t)
        maxWidth := some (inlMax env (pushStyle stk p.style) t) })) := rfl

theorem measureNode_canvas (env : Env) (stk : List String) (vs : List CVec)
    (p : Props) (a : Ann) :
    measureNode env stk (.canvas vs p a) =
      some (.canvas vs p (extendW (getNodeMargin env p) { a with
        margin := getNodeMargin env p
        minWidth := some (canvasBBox vs).1
        maxWidth := some (canvasBBox vs).1
        minHeight := some (canvasBBox vs).2
        maxHeight := some (canvasBBox vs).2 })) := rfl

theorem measureNode_bad (env : Env) (stk : List String) (p : Props) (a : Ann) :
    measureNode env stk (.bad p a) = none := rfl

theorem measureNodes_nil (env : Env) (stk : List String) :
    measureNodes env stk [] = some [] := rfl

theorem measureNodes_cons (env : Env) (stk : List String) (x : Node) (xs : List Node) :
    measureNodes env stk (x :: xs) =
      (match measureNode env stk x with
       | none => none
       | some y =>
         match measureNodes env stk xs with
         | none => none
         | some ys => some (y :: ys)) := rfl

theorem measureItems_nil (env : Env) (stk : List String) (isOrd : Bool)
    (gap : GapSize) (c : Nat) :
    measureItems env stk isOrd gap c [] = some [] := rfl

theorem measureItems_cons (env : Env) (stk : List String) (isOrd : Bool)
    (gap : GapSize) (c : Nat) (it : Node) (rest : List Node) :
    measureItems env stk isOrd gap c (it :: rest) =
      (match measureNode env stk it with
       | none => none
       | some it2 =>
         match measureItems env stk isOrd gap (c + 1) rest with
         | none => none
         | some rest2 =>
           some ((if it2.isNestedList then it2
                  else it2.setListMarker
                    (buildMarker isOrd (counterValue it2.propsOf.counter (toString c ++ ". ")) gap)) :: rest2)) := rfl

theorem measureRows_nil (env : Env) (stk : List String) (cols : Nat) :
    measureRows env stk cols [] = some [] := rfl

theorem measureRows_cons (env : Env) (stk : List String) (cols : Nat)
    (row : List Node) (rest : List (List Node)) :
    measureRows env stk cols (row :: rest) =
      (match measureCells env stk cols row with
       | none => none
       | some row2 =>
         match measureRows env stk cols rest with
         | none => none
         | some rest2 => some (row2 :: rest2)) := rfl

theorem measureCells_zero (env : Env) (stk : List String) (row : List Node) :
    measureCells env stk 0 row = some row := by cases row <;> rfl

theorem measureCells_succ_nil (env : Env) (stk : List String) (n : Nat) :
    measureCells env stk (n + 1) [] = none := rfl

theorem measureCells_succ_cons (env : Env) (stk : List String) (n : Nat)
    (c : Node) (cs : List Node) :
    measureCells env stk (n + 1) (c :: cs) =
      (match measureNode env stk c with
       | none => none
       | some c2 =>
         match measureCells env stk n cs with
         | none => none
         | some cs2 => some (c2 :: cs2)) := rfl

/-! ## Pagination engine: pageElementWriter.js

The Low-Level Writer (elementWriter.js) and the Layout Context
(documentContext.js) are external collaborators not part of the sources
under verification; they are modelled from the spec's contracts for them.
Writer and engine calls additionally produce a trace of events so that the
placement protocol (how often the writer and the page-break routine were
invoked, and with which fit results) is observable in theorem statements. -/

/-- A positioned line: its height drives the fit check; the tag gives lines
an identity so theorems can speak about where a line ended up. -/
structure Line where
  height : ℤ
  tag : Nat
deriving DecidableEq

/-- A positioned vector; its payload is irrelevant to pagination. -/
structure PVec where
  tag : Nat
deriving DecidableEq

/-- A page: an ordered collection of positioned lines and one of positioned
vectors. -/
structure Page where
  lines : List Line
  vectors : List PVec
deriving DecidableEq

/-- A self-contained fragment: positioned lines and vectors plus a declared
height.  The fragment committed by an unbreakable block is the sub-context's
first page with the sub-context's final cursor height assigned to it. -/
structure Fragment where
  lines : List Line
  vectors : List PVec
  height : ℤ
deriving DecidableEq

/-- Modelled from the spec: the Layout Context — page index, page
collection, 2-D cursor and the page's usable height.  A page index of -1
with an empty page collection is the state of a freshly forked unbreakable
sub-context (no current page until the first page break creates one). -/
structure Context where
  page : ℤ
  pages : List Page
  x : ℤ
  y : ℤ
  availableHeight : ℤ
deriving DecidableEq

/-- Modelled from the spec: the current page of a context, when the page
index denotes an existing page. -/
def Context.currentPage (c : Context) : Option Page :=
  if c.page < 0 then none else c.pages.get? c.page.toNat

/-- Modelled from the spec: replace the current page of a context. -/
def Context.setCurrentPage (c : Context) (p : Page) : Context :=
  { c with pages := c.pages.set c.page.toNat p }

/-- Modelled from the spec: moveToPageTop resets the cursor to the top of
the usable page area. -/
def Context.moveToPageTop (c : Context) : Context := { c with y := 0 }

/-- Modelled from the spec: createUnbreakableSubcontext forks a nested
context whose page collection and cursor are independent of the outer
one. -/
def Context.createUnbreakableSubcontext (c : Context) : Context :=
  { page := -1, pages := [], x := c.x, y := 0, availableHeight := c.availableHeight }

/-- Modelled from the spec: the Low-Level Writer's addLine — appends the
line at the cursor of the context and reports whether it fit on the current
page (`none` models a false return, in which case the context is
untouched).  When the second argument of the engine's addLine asks to keep
the cursor, the vertical position is not advanced. -/
def ewAddLine (c : Context) (l : Line) (dontUpdateContextPosition : Bool) : Option Context :=
  match c.currentPage with
  | none => none
  | some p =>
    if c.availableHeight < c.y + l.height then none
    else
      let c2 := c.setCurrentPage { p with lines := p.lines ++ [l] }
      some (if dontUpdateContextPosition then c2 else { c2 with y := c.y + l.height })

/-- Modelled from the spec: the Low-Level Writer's addVector — appends the
vector to the current page unconditionally (vectors never trigger a page
break). -/
def ewAddVector (c : Context) (v : PVec) : Option Context :=
  match c.currentPage with
  | none => none
  | some p => some (c.setCurrentPage { p with vectors := p.vectors ++ [v] })

/-- Modelled from the spec: the Low-Level Writer's addFragment — appends the
fragment's lines and vectors to the current page and advances the cursor by
the fragment's declared height; with the fit check suppressed the fragment
is placed regardless of the remaining space. -/
def ewAddFragment (c : Context) (f : Fragment) (suppressFitCheck : Bool) : Option Context :=
  match c.currentPage with
  | none => none
  | some p =>
    if ¬ suppressFitCheck ∧ c.availableHeight < c.y + f.height then none
    else
      some { c.setCurrentPage { p with lines := p.lines ++ f.lines, vectors := p.vectors ++ f.vectors }
               with y := c.y + f.height }

/-- Events of the placement protocol, recording each writer invocation with
its fit result and each entry into moveToNextPage. -/
inductive Ev where
  | evMoveToNextPage
  | evWriterAddLine (fits : Bool)
  | evWriterAddFragment (suppressed fits : Bool)
deriving DecidableEq

/-- The Pagination Engine's state (PageElementWriter): the original context,
the transaction sub-context with a flag telling which of the two the
`context` reference currently aliases, the transaction nesting depth, and
the stack of active repeatable fragments. -/
structure PEW where
  originalContext : Context
  transactionContext : Context
  contextIsTransaction : Bool
  transactionLevel : ℤ
  repeatables : List Fragment
deriving DecidableEq

/-- The context the engine's `context` reference currently points at. -/
def PEW.ctx (s : PEW) : Context :=
  if s.contextIsTransaction then s.transactionContext else s.originalContext

/-- Write back through the engine's `context` reference. -/
def PEW.setCtx (s : PEW) (c : Context) : PEW :=
  if s.contextIsTransaction then { s with transactionContext := c }
  else { s with originalContext := c }

/-- The repeatable re-emission loop of moveToNextPage's new-page branch:
each active repeatable is handed to the writer with the fit check
suppressed, in push order.  The writer's boolean result is ignored by the
source; with a current page present the suppressed call always succeeds. -/
def addReps (c : Context) : List Fragment → Context × List Ev
  | [] => (c, [])
  | r :: rest =>
    match ewAddFragment c r true with
    | some c2 =>
      let (c3, evs) := addReps c2 rest
      (c3, Ev.evWriterAddFragment true true :: evs)
    | none =>
      let (c3, evs) := addReps c rest
      (c3, Ev.evWriterAddFragment true false :: evs)

/-- moveToNextPage: advance to the next page index.  Beyond the page
collection a new empty page is appended, the cursor moves to the page top
and every repeatable is re-emitted through the writer with the fit check
suppressed; otherwise the existing page is re-entered, the cursor moves to
the page top and then advances past each repeatable's height without
emitting anything. -/
def PEW.moveToNextPage (s : PEW) : PEW × List Ev :=
  let c := s.ctx
  let nextPageIndex := c.page + 1
  if (c.pages.length : ℤ) ≤ nextPageIndex then
    let c2 := ({ c with pages := c.pages ++ [Page.mk [] []], page := nextPageIndex }).moveToPageTop
    let (c3, evs) := addReps c2 s.repeatables
    (s.setCtx c3, Ev.evMoveToNextPage :: evs)
  else
    let c2 := ({ c with page := nextPageIndex }).moveToPageTop
    let c3 := s.repeatables.foldl (fun cc r => { cc with y := cc.y + r.height }) c2
    (s.setCtx c3, [Ev.evMoveToNextPage])

/-- addLine of the engine: try the writer; on a non-fit, break to the next
page and try once more.  The result of the retry is discarded (the source
neither returns it nor checks it), so a line that does not fit even on a
fresh page is silently not placed. -/
def PEW.addLine (s : PEW) (l : Line) (dontUpdateContextPosition : Bool) : PEW × List Ev :=
  match ewAddLine s.ctx l dontUpdateContextPosition with
  | some c => (s.setCtx c, [Ev.evWriterAddLine true])
  | none =>
    let (s1, evs) := s.moveToNextPage
    match ewAddLine s1.ctx l dontUpdateContextPosition with
    | some c => (s1.setCtx c, Ev.evWriterAddLine false :: evs ++ [Ev.evWriterAddLine true])
    | none => (s1, Ev.evWriterAddLine false :: evs ++ [Ev.evWriterAddLine false])

/-- addVector of the engine: unconditional placement, no break protocol. -/
def PEW.addVector (s : PEW) (v : PVec) : PEW :=
  match ewAddVector s.ctx v with
  | some c => s.setCtx c
  | none => s

/-- addFragment of the engine: same single break-and-retry protocol as
addLine, and likewise the retry's result is discarded. -/
def PEW.addFragment (s : PEW) (f : Fragment) : PEW × List Ev :=
  match ewAddFragment s.ctx f false with
  | some c => (s.setCtx c, [Ev.evWriterAddFragment false true])
  | none =>
    let (s1, evs) := s.moveToNextPage
    match ewAddFragment s1.ctx f false with
    | some c => (s1.setCtx c, Ev.evWriterAddFragment false false :: evs ++ [Ev.evWriterAddFragment false true])
    | none => (s1, Ev.evWriterAddFragment false false :: evs ++ [Ev.evWriterAddFragment false false])

/-- beginUnbreakableBlock: depth-counted; only the transition from depth
zero forks the unbreakable sub-context and redirects the context
reference. -/
def PEW.beginUnbreakableBlock (s : PEW) : PEW :=
  let s2 : PEW := { s with transactionLevel := s.transactionLevel + 1 }
  if s.transactionLevel = 0 then
    { s2 with transactionContext := s.ctx.createUnbreakableSubcontext, contextIsTransaction := true }
  else s2

/-- commitUnbreakableBlock: depth-counted; only the commit that brings the
depth back to zero restores the original context and, when the sub-context
produced at least one page, packages that first page together with the
sub-context's final cursor height as a fragment placed into the original
context via addFragment. -/
def PEW.commitUnbreakableBlock (s : PEW) : PEW × List Ev :=
  let s2 : PEW := { s with transactionLevel := s.transactionLevel - 1 }
  if s2.transactionLevel = 0 then
    let s3 := { s2 with contextIsTransaction := false }
    match s.transactionContext.pages with
    | [] => (s3, [])
    | p :: _ =>
      s3.addFragment { lines := p.lines, vectors := p.vectors, height := s.transactionContext.y }
  else (s2, [])

/-- unbreakableBlockToRepeatable: capture the sub-context's first page as a
standalone fragment without committing the transaction. -/
def PEW.unbreakableBlockToRepeatable (s : PEW) : Option Fragment :=
  match s.transactionContext.pages with
  | [] => none
  | p :: _ => some { lines := p.lines, vectors := p.vectors, height := s.transactionContext.y }

/-- pushToRepeatables: activate a fragment for re-emission on new pages. -/
def PEW.pushToRepeatables (s : PEW) (f : Fragment) : PEW :=
  { s with repeatables := s.repeatables ++ [f] }

/-- popFromRepeatables: deactivate the most recently pushed repeatable. -/
def PEW.popFromRepeatables (s : PEW) : PEW :=
  { s with repeatables := s.repeatables.dropLast }

/-! ## Concrete environments used by witnesses and counterexamples -/

/-- A concrete environment: every word measures one unit wide, every gap
string measures two units wide and one high with font size six, the style
dictionary is empty and no column gap is configured. -/
def envT : Env :=
  { wordWidths := fun _ _ => [1]
    sizeOfString := fun _ _ => ⟨2, 1, 6, 0⟩
    styleDict := fun _ => none
    columnGap := fun _ => none }

/-- An environment whose style dictionary has exactly one entry, named big,
declaring a margin of five on every side. -/
def envBig : Env :=
  { envT with styleDict := fun k => if k = "big" then some ⟨some (.num 5)⟩ else none }

/-! ## Theorems -/

/-- Fold of the canvas bounding box is unchanged when the vectors the
switch does not recognize are removed: they contribute nothing. -/
theorem canvasBBox_filter (vs : List CVec) (wh : ℤ × ℤ) :
    vs.foldl canvasStep wh = (vs.filter CVec.recognized).foldl canvasStep wh := by
  induction vs generalizing wh with
  | nil => rfl
  | cons v rest ih =>
    cases v <;> simp [CVec.recognized, canvasStep, List.filter] <;> exact ih _

/-- C9: measureCanvas never fails — for every canvas node (whose resolved
margin is absent, as for a plain canvas), measurement succeeds; a vector of
unrecognized type contributes nothing to the bounding box; the measured
widths and heights are the bounding box with min pinned equal to max, so a
canvas with no primitives, or only unrecognized ones, yields min and max
width zero and min and max height zero. -/
theorem measureCanvas_total (env : Env) (stk : List String) (vs : List CVec)
    (p : Props) (a : Ann) (h : getNodeMargin env p = none) :
    measureNode env stk (.canvas vs p a) =
      some (.canvas vs p { a with
        margin := none
        minWidth := some (canvasBBox vs).1
        maxWidth := some (canvasBBox vs).1
        minHeight := some (canvasBBox vs).2
        maxHeight := some (canvasBBox vs).2 : Ann }) ∧
    canvasBBox vs = canvasBBox (vs.filter CVec.recognized) ∧
    canvasBBox [] = (0, 0) := by
  refine ⟨?_, canvasBBox_filter vs (0, 0), rfl⟩
  simp [measureNode, h, extendW]

/-- Witness for C9 at a concrete input: a canvas holding one unrecognized
vector measures to all-zero bounds. -/
theorem measureCanvas_total_witness :
    measureNode envT [] (.canvas [CVec.other] {} {}) =
      some (.canvas [CVec.other] {} {
        margin := none
        minWidth := some (canvasBBox [CVec.other]).1
        maxWidth := some (canvasBBox [CVec.other]).1
        minHeight := some (canvasBBox [CVec.other]).2
        maxHeight := some (canvasBBox [CVec.other]).2 : Ann }) ∧
    canvasBBox [CVec.other] = canvasBBox ([CVec.other].filter CVec.recognized) ∧
    canvasBBox [] = ((0 : ℤ), (0 : ℤ)) :=
  measureCanvas_total envT [] [CVec.other] {} {} rfl

/-- Auxiliary: the broadcast loop starting from a one-element array yields
a replicated array covering every column (at least the one starting
element). -/
theorem singleton_extend_replicate {α : Type} (x : α) (n : Nat) :
    [x] ++ List.replicate (n - 1) x = List.replicate (max 1 n) x := by
  cases n with
  | zero => rfl
  | succ k => simp [List.replicate_succ]

/-- Broadcast result at a non-empty body: one descriptor with the given
value per body column, at least one. -/
theorem extendBroadcast_eq (v : String) (row0 : List Node) (rest : List (List Node)) :
    extendBroadcast v (row0 :: rest) =
      some (.list (List.replicate (max 1 row0.length) (WidthEntry.desc (.s v) none none))) := by
  simp only [extendBroadcast, List.length_singleton]
  rw [singleton_extend_replicate]
  simp [wrapWidth]

/-- C2 (amended): table width normalization.  An absent widths property —
and equally the falsy widths values zero and the empty string, through the
same `!widths` test — is replaced by the bare string auto and broadcast, so
it normalizes to one auto width descriptor per body column (at least one).
A truthy bare string width is broadcast: the single value is replicated
until it covers every column and each entry is wrapped into a width
descriptor.  A truthy (non-zero) bare number however is not a string and
not an array: it is neither broadcast nor wrapped, and is left untouched.
An explicit widths array is never extended — only its bare entries are
wrapped — so an array shorter than the body is not lengthened. -/
theorem extendTableWidths_spec (row0 : List Node) (rest : List (List Node))
    (v : String) (n : ℤ) (l : List WidthEntry) (body : List (List Node)) :
    extendTableWidths .absent (row0 :: rest) =
      some (.list (List.replicate (max 1 row0.length) (WidthEntry.desc (.s "auto") none none))) ∧
    extendTableWidths (.scalar (.s v)) (row0 :: rest) =
      some (.list (List.replicate (max 1 row0.length)
        (WidthEntry.desc (.s (if v = "" then "auto" else v)) none none))) ∧
    extendTableWidths (.scalar (.n n)) (row0 :: rest) =
      (if n = 0 then
        some (.list (List.replicate (max 1 row0.length) (WidthEntry.desc (.s "auto") none none)))
      else some (.scalar (.n n))) ∧
    extendTableWidths (.list l) body = some (.list (l.map wrapWidth)) ∧
    (l.map wrapWidth).length = l.length := by
  refine ⟨?_, ?_, ?_, rfl, List.length_map l wrapWidth⟩
  · simp only [extendTableWidths]
    rw [extendBroadcast_eq]
  · simp only [extendTableWidths]
    by_cases hv : v = ""
    · rw [if_pos hv, if_pos hv, extendBroadcast_eq]
    · rw [if_neg hv, if_neg hv, extendBroadcast_eq]
  · simp only [extendTableWidths]
    by_cases hn : n = 0
    · rw [if_pos hn, if_pos hn, extendBroadcast_eq]
    · rw [if_neg hn, if_neg hn]

/-- C2 counterexample: a table with three body columns and an explicit
widths array of one auto entry keeps a one-element widths array (the claim
says length three), and the subsequent measurement of such a table crashes
(the column loop reads a property of the missing second width entry), so no
normalized three-element array ever exists. -/
theorem extendTableWidths_counterexample :
    extendTableWidths (.list [WidthEntry.raw (.s "auto")])
        [[Node.strN "a", Node.strN "b", Node.strN "c"]] =
      some (.list [WidthEntry.desc (.s "auto") none none]) ∧
    ([WidthEntry.desc (.s "auto") none none] : List WidthEntry).length = 1 ∧
    (1 : Nat) ≠ 3 ∧
    measureNode envT []
        (.table (.list [WidthEntry.raw (.s "auto")])
          [[Node.strN "a", Node.strN "b", Node.strN "c"]] none none {} {}) = none ∧
    measureNode envT []
        (.table (.scalar (.n 50)) [[Node.strN "a", Node.strN "b", Node.strN "c"]] none none {} {}) = none := by
  exact ⟨rfl, rfl, by decide, rfl, rfl⟩

/-- The node properties exhibiting the style-list margin lookup defect: no
explicit margin, and a style list naming big (which declares a margin in
the dictionary of envBig) and small. -/
def propsC3 : Props := { style := some (.many ["big", "small"]) }

/-- C3: margin lookup through a style list.  The dictionary of envBig
declares a margin of five for the listed style big, yet the resolution
returns none: the loop body reads the dictionary at the whole style value
(the array, which as a JavaScript object key is the string big,small) on
every iteration, never at the individual style names — the loop variable
holding the current name is assigned but unused.  For a single style name
the whole-value key coincides with the name, so only list-valued styles are
affected. -/
theorem getNodeMargin_styleList_bug :
    envBig.styleDict "big" = some ⟨some (.num 5)⟩ ∧
    propsC3.style = some (.many ["big", "small"]) ∧
    envBig.styleDict ((StyleRef.many ["big", "small"]).jsKey) = none ∧
    getNodeMargin envBig propsC3 = none ∧
    getNodeMargin envBig { style := some (.one "big") } = some (5, 5, 5, 5) := by
  refine ⟨rfl, rfl, by decide, by decide, by decide⟩

/-- The document exhibiting the missing node-level table bounds: a stack
whose only child is a table with a single text cell. -/
def docC1 : Node :=
  .stack [.table .absent [[.text "a" {} {}]] none none {} {}] {} {}

/-- C1: the bound-ordering invariant fails on table nodes.  Measuring a
stack containing a table succeeds, and the table's own aggregates are
computed (the cell measures one unit, so the table-level bounds are one),
but measureTable stores them only on the inner table object and never on
the node, so the table node's minWidth and maxWidth stay undefined and the
enclosing stack aggregates them to NaN: the root's bounds are not numbers
and the comparison minWidth less-or-equal maxWidth is false there. -/
theorem measure_table_bounds_undefined :
    ((measureDocument envT docC1).map fun m => (m.annOf.minWidth, m.annOf.maxWidth)) =
      some (none, none) ∧
    ((measureDocument envT docC1).map fun m =>
      match m with
      | .stack [.table _ _ tmn tmx _ _] _ _ => some (tmn, tmx)
      | _ => none) = some (some (some 1, some 1)) ∧
    ¬ jsLe none none := by
  exact ⟨rfl, rfl, by decide⟩

/-- Whether a node is one of the two shorthand forms (a bare string or a
bare array), which measureNode expands before dispatching and therefore
never returns. -/
def Node.isShorthand : Node → Bool
  | .strN _ => true
  | .arrN _ => true
  | _ => false

theorem setListMarker_isNestedList (x : Node) (mk : Marker) :
    (x.setListMarker mk).isNestedList = x.isNestedList := by
  cases x <;> rfl

theorem setListMarker_propsOf (x : Node) (mk : Marker) :
    (x.setListMarker mk).propsOf = x.propsOf := by
  cases x <;> rfl

theorem setListMarker_annOf (x : Node) (mk : Marker) (h : x.isShorthand = false) :
    (x.setListMarker mk).annOf.listMarker = some mk := by
  cases x <;> simp_all [Node.isShorthand, Node.setListMarker, Node.annOf]

/-- Result shape of measureNode: the measured node is never one of the
shorthand forms (they are expanded into a text or stack node first). -/
theorem measureNode_not_shorthand (env : Env) (stk : List String) (t m : Node)
    (h : measureNode env stk t = some m) : m.isShorthand = false := by
  cases t with
  | strN s => rw [measureNode_strN] at h; cases h; rfl
  | arrN items =>
    rw [measureNode_arrN] at h
    cases hn : measureNodes env stk items with
    | none => rw [hn] at h; cases h
    | some items2 => rw [hn] at h; cases h; rfl
  | columns cols p a =>
    rw [measureNode_columns] at h
    cases hn : measureNodes env (pushStyle stk p.style) cols with
    | none => rw [hn] at h; cases h
    | some cols2 => rw [hn] at h; cases h; rfl
  | stack items p a =>
    rw [measureNode_stack] at h
    cases hn : measureNodes env (pushStyle stk p.style) items with
    | none => rw [hn] at h; cases h
    | some items2 => rw [hn] at h; cases h; rfl
  | ul items p a =>
    rw [measureNode_ul] at h
    cases hn : measureItems env (pushStyle stk p.style) false
        (env.sizeOfString (pushStyle stk p.style) "9. ") 1 items with
    | none => rw [hn] at h; cases h
    | some items2 => rw [hn] at h; cases h; rfl
  | ol items p a =>
    rw [measureNode_ol] at h
    cases hn : measureItems env (pushStyle stk p.style) true
        (env.sizeOfString (pushStyle stk p.style) (nines items.length ++ ". ")) 1 items with
    | none => rw [hn] at h; cases h
    | some items2 => rw [hn] at h; cases h; rfl
  | table ws body tmn tmx p a =>
    rw [measureNode_table] at h
    cases hw : extendTableWidths ws body with
    | none => rw [hw] at h; cases h
    | some ws2 =>
      rw [hw] at h
      cases hh : body.head? with
      | none => rw [hh] at h; cases h
      | some row0 =>
        rw [hh] at h
        dsimp only at h
        cases hr : measureRows env (pushStyle stk p.style) row0.length body with
        | none => rw [hr] at h; cases h
        | some body2 =>
          rw [hr] at h
          dsimp only at h
          cases ws2 with
          | list wl =>
            simp only [finishTable] at h
            by_cases hc : row0.length ≤ wl.length
            · rw [if_pos hc] at h; cases h; rfl
            · rw [if_neg hc] at h; cases h
          | absent =>
            simp only [finishTable] at h
            by_cases hz : row0.length = 0
            · rw [if_pos hz] at h; cases h; rfl
            · rw [if_neg hz] at h; cases h
          | scalar v =>
            simp only [finishTable] at h
            by_cases hz : row0.length = 0
            · rw [if_pos hz] at h; cases h; rfl
            · rw [if_neg hz] at h; cases h
  | text t p a => rw [measureNode_text] at h; cases h; rfl
  | canvas vs p a => rw [measureNode_canvas] at h; cases h; rfl
  | bad p a => rw [measureNode_bad] at h; cases h

/-- The item loop of measureList, observed at an index: the measured item
at position i comes from the input item at position i, and when it is not a
nested list it carries a marker built from the counter value c plus i (the
counter is incremented for every item, nested lists included). -/
theorem measureItems_get (env : Env) (stk : List String) (isOrd : Bool) (gap : GapSize)
    (items : List Node) :
    ∀ (c i : Nat) (items2 it2 : _),
      measureItems env stk isOrd gap c items = some items2 →
      items2.get? i = some it2 →
      ∃ it it', items.get? i = some it ∧ measureNode env stk it = some it' ∧
        it2 = (if it'.isNestedList then it'
               else it'.setListMarker
                 (buildMarker isOrd (counterValue it'.propsOf.counter (toString (c + i) ++ ". ")) gap)) := by
  induction items with
  | nil =>
    intro c i items2 it2 h1 h2
    rw [measureItems_nil] at h1
    cases h1
    simp at h2
  | cons it rest ih =>
    intro c i items2 it2 h1 h2
    rw [measureItems_cons] at h1
    cases hm : measureNode env stk it with
    | none => rw [hm] at h1; cases h1
    | some it' =>
      rw [hm] at h1
      cases hr : measureItems env stk isOrd gap (c + 1) rest with
      | none => rw [hr] at h1; cases h1
      | some rest2 =>
        rw [hr] at h1
        cases h1
        cases i with
        | zero =>
          simp only [List.get?] at h2
          cases h2
          exact ⟨it, it', rfl, hm, by simp⟩
        | succ j =>
          simp only [List.get?] at h2
          obtain ⟨a, b, hab, hmb, he⟩ := ih (c + 1) j rest2 it2 hr h2
          refine ⟨a, b, hab, hmb, ?_⟩
          have hc : c + 1 + j = c + (j + 1) := by omega
          rw [← hc]
          exact he

/-- The gap size envT reports for every string. -/
def gapT : GapSize := ⟨2, 1, 6, 0⟩

/-- C10: ordered-list numbering.  The measured item at position i of an
ordered list (counting from zero, nested sub-lists included) that is not
itself a nested list and carries no counter override receives the marker
built from the string of its one-based position among all items followed by
a dot and a space: the counter is incremented for every item, so each
nested sub-list before an item shifts its number even though the sub-list
itself gets no marker. -/
theorem olCounter_position (env : Env) (stk : List String) (gap : GapSize)
    (items items2 : List Node) (i : Nat) (it2 : Node)
    (h1 : measureItems env stk true gap 1 items = some items2)
    (h2 : items2.get? i = some it2)
    (h3 : it2.isNestedList = false)
    (h4 : it2.propsOf.counter = none) :
    it2.annOf.listMarker = some (buildMarker true (toString (i + 1) ++ ". ") gap) ∧
    (buildMarker true (toString (i + 1) ++ ". ") gap).inlines = some (toString (i + 1) ++ ". ") := by
  obtain ⟨it, it', hit, hm, he⟩ := measureItems_get env stk true gap items 1 i items2 it2 h1 h2
  cases hn : it'.isNestedList with
  | true =>
    rw [hn] at he
    simp only [if_true] at he
    rw [he] at h3
    rw [h3] at hn
    cases hn
  | false =>
    rw [hn] at he
    simp only [Bool.false_eq_true, if_false] at he
    have hp : it2.propsOf = it'.propsOf := by rw [he, setListMarker_propsOf]
    have hcv : it'.propsOf.counter = none := by rw [← hp, h4]
    have hsh : it'.isShorthand = false := measureNode_not_shorthand env stk it it' hm
    have hc : (1 : Nat) + i = i + 1 := Nat.add_comm 1 i
    rw [he, setListMarker_annOf _ _ hsh, hcv]
    exact ⟨by rw [hc]; rfl, rfl⟩

/-- Input list for the numbering witnesses: a nested unordered list
followed by a plain text item. -/
def w10items : List Node := [.ul [] {} {}, .text "b" {} {}]

/-- The measured form of the nested list at the head of w10items. -/
def w10ul : Node :=
  .ul [] {} { margin := none, minWidth := some 0, maxWidth := some 0, gapSize := some gapT }

/-- The measured form of the text item of w10items, carrying the marker
numbered two. -/
def w10text : Node :=
  .text "b" {} {
    margin := none
    minWidth := some 1
    maxWidth := some 1
    inlines := some "b"
    listMarker := some (buildMarker true "2. " gapT) }

/-- The measured form of w10items under envT: the nested list keeps no
marker, the text item at position one carries the marker numbered two. -/
def w10out : List Node := [w10ul, w10text]

/-- Witness for C10: in the concrete two-item ordered list whose first item
is a nested list, the second item's marker reads two dot space. -/
theorem olCounter_position_witness :
    w10text.annOf.listMarker = some (buildMarker true (toString (1 + 1) ++ ". ") gapT) ∧
    (buildMarker true (toString (1 + 1) ++ ". ") gapT).inlines =
      some (toString (1 + 1) ++ ". ") :=
  olCounter_position envT [] gapT w10items w10out 1 w10text rfl rfl rfl rfl

/-- C7 (amended): ordered-list markers.  Every measured non-nested item of
an ordered list carries a marker whose inline content is its one-based
sequence number followed by dot space — except that a truthy counter
override on the item replaces the whole string, with nothing appended to
the override — and whose min and max width equal the gap width and min and
max height equal the gap height. -/
theorem olMarker_spec (env : Env) (stk : List String) (gap : GapSize)
    (items items2 : List Node) (i : Nat) (it2 : Node)
    (h1 : measureItems env stk true gap 1 items = some items2)
    (h2 : items2.get? i = some it2)
    (h3 : it2.isNestedList = false) :
    ∃ mk, it2.annOf.listMarker = some mk ∧
      mk.inlines = some (counterValue it2.propsOf.counter (toString (i + 1) ++ ". ")) ∧
      mk.minW = gap.width ∧ mk.maxW = gap.width ∧ mk.minH = gap.height ∧ mk.maxH = gap.height := by
  obtain ⟨it, it', hit, hm, he⟩ := measureItems_get env stk true gap items 1 i items2 it2 h1 h2
  cases hn : it'.isNestedList with
  | true =>
    rw [hn] at he
    simp only [if_true] at he
    rw [he] at h3
    rw [h3] at hn
    cases hn
  | false =>
    rw [hn] at he
    simp only [Bool.false_eq_true, if_false] at he
    have hp : it2.propsOf = it'.propsOf := by rw [he, setListMarker_propsOf]
    have hsh : it'.isShorthand = false := measureNode_not_shorthand env stk it it' hm
    have hc : (1 : Nat) + i = i + 1 := Nat.add_comm 1 i
    refine ⟨buildMarker true (counterValue it'.propsOf.counter (toString (1 + i) ++ ". ")) gap,
      by rw [he, setListMarker_annOf _ _ hsh], ?_, rfl, rfl, rfl, rfl⟩
    rw [hp, hc]
    rfl

/-- Witness for C7: in the same concrete ordered list, the second item's
marker has inline content two dot space and bounds pinned to the gap. -/
theorem olMarker_spec_witness :
    ∃ mk, w10text.annOf.listMarker = some mk ∧
      mk.inlines = some (counterValue w10text.propsOf.counter (toString (1 + 1) ++ ". ")) ∧
      mk.minW = gapT.width ∧ mk.maxW = gapT.width ∧ mk.minH = gapT.height ∧ mk.maxH = gapT.height :=
  olMarker_spec envT [] gapT w10items w10out 1 w10text rfl rfl rfl

/-- C7 counterexample: an item with a counter override value X gets a
marker whose content is exactly X — the dot-space suffix is not appended to
an override, contrary to the claim. -/
theorem olMarker_override_counterexample :
    ((measureNode envT [] (.ol [.text "a" { counter := some "X" } {}] {} {})).map fun m =>
      match m with
      | .ol [it] _ _ => it.annOf.listMarker.map Marker.inlines
      | _ => none) = some (some (some "X")) ∧
    some "X" ≠ some ("X" ++ ". ") := by
  exact ⟨rfl, by decide⟩

/-! ### Pagination lemmas -/

/-- Sum of the declared heights of a list of fragments. -/
def sumHeights (reps : List Fragment) : ℤ := reps.foldl (fun acc r => acc + r.height) 0

/-- Concatenated lines of a list of fragments, in order. -/
def joinLines (reps : List Fragment) : List Line := (reps.map Fragment.lines).flatten

/-- Concatenated vectors of a list of fragments, in order. -/
def joinVecs (reps : List Fragment) : List PVec := (reps.map Fragment.vectors).flatten

theorem foldl_height_shift (reps : List Fragment) (x : ℤ) :
    reps.foldl (fun acc r => acc + r.height) x = x + sumHeights reps := by
  induction reps generalizing x with
  | nil => simp [sumHeights]
  | cons r rest ih =>
    simp only [List.foldl_cons, sumHeights] at ih ⊢
    rw [ih (x + r.height), ih (0 + r.height)]
    omega

theorem sumHeights_cons (r : Fragment) (rest : List Fragment) :
    sumHeights (r :: rest) = r.height + sumHeights rest := by
  simp only [sumHeights, List.foldl_cons]
  have := foldl_height_shift rest (0 + r.height)
  simp only [sumHeights] at this
  omega

theorem joinLines_cons (r : Fragment) (rest : List Fragment) :
    joinLines (r :: rest) = r.lines ++ joinLines rest := by
  simp [joinLines]

theorem joinVecs_cons (r : Fragment) (rest : List Fragment) :
    joinVecs (r :: rest) = r.vectors ++ joinVecs rest := by
  simp [joinVecs]

theorem foldl_moveDown (reps : List Fragment) (c : Context) :
    reps.foldl (fun cc r => { cc with y := cc.y + r.height }) c =
      { c with y := c.y + sumHeights reps } := by
  induction reps generalizing c with
  | nil => simp [sumHeights]
  | cons r rest ih =>
    simp only [List.foldl_cons, ih, sumHeights_cons]
    have : c.y + r.height + sumHeights rest = c.y + (r.height + sumHeights rest) := by omega
    rw [this]

theorem set_id_of_get? {α : Type} (l : List α) (n : Nat) (a : α)
    (h : l.get? n = some a) : l.set n a = l := by
  induction l generalizing n with
  | nil => exact absurd h (by simp)
  | cons x xs ih =>
    cases n with
    | zero =>
      have hx : x = a := by simpa using h
      simp [List.set, hx]
    | succ m =>
      have h2 : xs.get? m = some a := h
      simp [List.set, ih m h2]

theorem set_append_singleton {α : Type} (l : List α) (x y : α) :
    (l ++ [x]).set l.length y = l ++ [y] := by
  induction l with
  | nil => rfl
  | cons a as ih => simp [List.set, ih]

/-- The writer's suppressed addFragment on a context whose current page
exists: the fragment's lines and vectors are appended to that page and the
cursor advances by the fragment's height. -/
theorem ewAddFragment_suppressed (c : Context) (p : Page) (f : Fragment)
    (hp : c.currentPage = some p) :
    ewAddFragment c f true =
      some { c with
        pages := c.pages.set c.page.toNat { lines := p.lines ++ f.lines, vectors := p.vectors ++ f.vectors }
        y := c.y + f.height } := by
  simp only [ewAddFragment, hp]
  simp [Context.setCurrentPage]

/-- Repeatable re-emission: starting from a context whose current page is p,
the loop appends every fragment's lines and vectors to that page in push
order, advances the cursor by the total height, and reports one suppressed
fitting writer call per fragment. -/
theorem addReps_spec (reps : List Fragment) :
    ∀ (c : Context) (p : Page), c.currentPage = some p →
      addReps c reps =
        ({ c with
            pages := c.pages.set c.page.toNat
              { lines := p.lines ++ joinLines reps, vectors := p.vectors ++ joinVecs reps }
            y := c.y + sumHeights reps },
         reps.map fun _ => Ev.evWriterAddFragment true true) := by
  induction reps with
  | nil =>
    intro c p hp
    have hneg : ¬ c.page < 0 := by
      by_contra hc
      simp [Context.currentPage, hc] at hp
    have hget : c.pages.get? c.page.toNat = some p := by
      simpa [Context.currentPage, hneg] using hp
    simp only [addReps, joinLines, joinVecs, sumHeights, List.map_nil, List.flatten_nil,
      List.append_nil, List.foldl_nil]
    rw [set_id_of_get? _ _ _ hget]
    simp
  | cons r rest ih =>
    intro c p hp
    have hneg : ¬ c.page < 0 := by
      by_contra hc
      simp [Context.currentPage, hc] at hp
    have hget : c.pages.get? c.page.toNat = some p := by
      simpa [Context.currentPage, hneg] using hp
    have hlt : c.page.toNat < c.pages.length := by
      rcases List.get?_eq_some.mp hget with ⟨hl, _⟩
      exact hl
    simp only [addReps, ewAddFragment_suppressed c p r hp]
    have hp2 : ({ c with
        pages := c.pages.set c.page.toNat { lines := p.lines ++ r.lines, vectors := p.vectors ++ r.vectors }
        y := c.y + r.height } : Context).currentPage =
        some { lines := p.lines ++ r.lines, vectors := p.vectors ++ r.vectors } := by
      simp [Context.currentPage, hneg, List.get?_eq_getElem?, List.getElem?_set_eq_of_lt _ hlt]
    rw [ih _ _ hp2]
    have hy : c.y + r.height + sumHeights rest = c.y + sumHeights (r :: rest) := by
      rw [sumHeights_cons]; omega
    have hl2 : p.lines ++ r.lines ++ joinLines rest = p.lines ++ joinLines (r :: rest) := by
      rw [joinLines_cons, List.append_assoc]
    have hv2 : p.vectors ++ r.vectors ++ joinVecs rest = p.vectors ++ joinVecs (r :: rest) := by
      rw [joinVecs_cons, List.append_assoc]
    simp only [List.set_set, hy, hl2, hv2, List.map_cons]

theorem ewAddFragment_page (c : Context) (f : Fragment) (b : Bool) (c' : Context)
    (h : ewAddFragment c f b = some c') : c'.page = c.page := by
  simp only [ewAddFragment] at h
  cases hcp : c.currentPage with
  | none => rw [hcp] at h; cases h
  | some p =>
    rw [hcp] at h
    dsimp only at h
    split at h
    · cases h
    · cases h; rfl

theorem addReps_page (reps : List Fragment) :
    ∀ c : Context, (addReps c reps).1.page = c.page := by
  induction reps with
  | nil => intro c; rfl
  | cons r rest ih =>
    intro c
    simp only [addReps]
    cases hf : ewAddFragment c r true with
    | none => simpa using ih c
    | some c2 =>
      have := ewAddFragment_page c r true c2 hf
      simpa [this] using ih c2

theorem ctx_setCtx (s : PEW) (c : Context) : (s.setCtx c).ctx = c := by
  simp only [PEW.setCtx, PEW.ctx]
  by_cases h : s.contextIsTransaction <;> simp [h]

/-- C5: moveToNextPage.  The page index always advances by one.  When the
next index is beyond the page collection (the well-formed case being index
equal to the collection length), a new empty page is appended, the cursor
is reset to the page top, and every active repeatable is re-emitted onto
the new page in push order through the writer with the fit check
suppressed, leaving the cursor past their total height.  When the next page
already exists, nothing is re-emitted — the page collection is untouched
and the only event is the page move — and the cursor, reset to the page
top, is advanced past the total height of the active repeatables. -/
theorem moveToNextPage_spec (s : PEW) :
    ((s.moveToNextPage).1.ctx.page = s.ctx.page + 1) ∧
    (if s.ctx.page + 1 = (s.ctx.pages.length : ℤ) then
       (s.moveToNextPage).1.ctx.pages =
           s.ctx.pages ++ [{ lines := joinLines s.repeatables, vectors := joinVecs s.repeatables }] ∧
       (s.moveToNextPage).1.ctx.y = sumHeights s.repeatables ∧
       (s.moveToNextPage).2 =
           Ev.evMoveToNextPage :: s.repeatables.map (fun _ => Ev.evWriterAddFragment true true)
     else if s.ctx.page + 1 < (s.ctx.pages.length : ℤ) then
       (s.moveToNextPage).1.ctx.pages = s.ctx.pages ∧
       (s.moveToNextPage).1.ctx.y = sumHeights s.repeatables ∧
       (s.moveToNextPage).2 = [Ev.evMoveToNextPage]
     else True) := by
  by_cases heq : s.ctx.page + 1 = (s.ctx.pages.length : ℤ)
  · have hle : (s.ctx.pages.length : ℤ) ≤ s.ctx.page + 1 := le_of_eq heq.symm
    have htn : (s.ctx.page + 1).toNat = s.ctx.pages.length := by omega
    have hcur : ({ s.ctx with
        pages := s.ctx.pages ++ [Page.mk [] []]
        page := s.ctx.page + 1
        y := 0 } : Context).currentPage = some (Page.mk [] []) := by
      have hge : ¬ s.ctx.page + 1 < 0 := by omega
      simp only [Context.currentPage, hge, if_false, htn]
      simp [List.get?_eq_getElem?]
    have hstep := addReps_spec s.repeatables _ _ hcur
    have hmain : s.moveToNextPage =
        (s.setCtx { s.ctx with
            pages := (s.ctx.pages ++ [Page.mk [] []]).set (s.ctx.page + 1).toNat
              { lines := [] ++ joinLines s.repeatables, vectors := [] ++ joinVecs s.repeatables }
            page := s.ctx.page + 1
            y := 0 + sumHeights s.repeatables },
         Ev.evMoveToNextPage :: s.repeatables.map (fun _ => Ev.evWriterAddFragment true true)) := by
      simp only [PEW.moveToNextPage, Context.moveToPageTop]
      rw [if_pos hle, hstep]
    rw [hmain, if_pos heq]
    refine ⟨by simp [ctx_setCtx], ?_, by simp [ctx_setCtx], by simp⟩
    rw [ctx_setCtx]
    simp only [htn, set_append_singleton]
    simp
  · by_cases hlt : s.ctx.page + 1 < (s.ctx.pages.length : ℤ)
    · have hnle : ¬ (s.ctx.pages.length : ℤ) ≤ s.ctx.page + 1 := by omega
      have hmain : s.moveToNextPage =
          (s.setCtx { s.ctx with
              page := s.ctx.page + 1
              y := 0 + sumHeights s.repeatables },
           [Ev.evMoveToNextPage]) := by
        simp only [PEW.moveToNextPage, Context.moveToPageTop]
        rw [if_neg hnle, foldl_moveDown]
      rw [hmain, if_neg heq, if_pos hlt]
      refine ⟨by simp [ctx_setCtx], by simp [ctx_setCtx], by simp [ctx_setCtx], rfl⟩
    · rw [if_neg heq, if_neg hlt]
      refine ⟨?_, trivial⟩
      by_cases hle : (s.ctx.pages.length : ℤ) ≤ s.ctx.page + 1
      · have hpg := addReps_page s.repeatables { s.ctx with
            pages := s.ctx.pages ++ [Page.mk [] []]
            page := s.ctx.page + 1
            y := 0 }
        simp only [PEW.moveToNextPage, Context.moveToPageTop]
        rw [if_pos hle]
        simp [ctx_setCtx, hpg]
      · omega

/-- Whether an event is an engine-level writer addLine call. -/
def isLineEv : Ev → Bool
  | .evWriterAddLine _ => true
  | _ => false

/-- Whether an event is an engine-level (unsuppressed) writer addFragment
call — repeatable re-emission is suppressed and does not count. -/
def isOuterFragEv : Ev → Bool
  | .evWriterAddFragment false _ => true
  | _ => false

theorem addReps_events (reps : List Fragment) :
    ∀ (c : Context) (e : Ev), e ∈ (addReps c reps).2 → ∃ b, e = Ev.evWriterAddFragment true b := by
  induction reps with
  | nil => intro c e he; simp [addReps] at he
  | cons r rest ih =>
    intro c e he
    simp only [addReps] at he
    cases hf : ewAddFragment c r true with
    | some c2 =>
      rw [hf] at he
      dsimp only at he
      rcases List.mem_cons.mp he with h | h
      · exact ⟨true, h⟩
      · exact ih c2 e h
    | none =>
      rw [hf] at he
      dsimp only at he
      rcases List.mem_cons.mp he with h | h
      · exact ⟨false, h⟩
      · exact ih c e h

/-- The event trace of a page break: exactly one page-move event, no
engine-level line event and no engine-level fragment event (anything else
in the trace is suppressed repeatable re-emission). -/
theorem moveToNextPage_events (s : PEW) :
    (s.moveToNextPage).2.count Ev.evMoveToNextPage = 1 ∧
    (s.moveToNextPage).2.countP isLineEv = 0 ∧
    (s.moveToNextPage).2.countP isOuterFragEv = 0 := by
  by_cases hle : (s.ctx.pages.length : ℤ) ≤ s.ctx.page + 1
  · have hmain : (s.moveToNextPage).2 =
        Ev.evMoveToNextPage ::
          (addReps (({ s.ctx with
              pages := s.ctx.pages ++ [Page.mk [] []]
              page := s.ctx.page + 1 } : Context).moveToPageTop) s.repeatables).2 := by
      simp only [PEW.moveToNextPage]
      rw [if_pos hle]
    rw [hmain]
    have hshape := addReps_events s.repeatables (({ s.ctx with
        pages := s.ctx.pages ++ [Page.mk [] []]
        page := s.ctx.page + 1 } : Context).moveToPageTop)
    refine ⟨?_, ?_, ?_⟩
    · rw [List.count_cons]
      have h0 : (addReps _ s.repeatables).2.count Ev.evMoveToNextPage = 0 :=
        List.count_eq_zero.mpr (fun hmem => by
          obtain ⟨b, hb⟩ := hshape _ hmem
          cases hb)
      simp [h0]
    · rw [List.countP_cons]
      have h0 : (addReps _ s.repeatables).2.countP isLineEv = 0 :=
        List.countP_eq_zero.mpr (fun e hmem => by
          obtain ⟨b, hb⟩ := hshape e hmem
          subst hb
          simp [isLineEv])
      simp [h0, isLineEv]
    · rw [List.countP_cons]
      have h0 : (addReps _ s.repeatables).2.countP isOuterFragEv = 0 :=
        List.countP_eq_zero.mpr (fun e hmem => by
          obtain ⟨b, hb⟩ := hshape e hmem
          subst hb
          simp [isOuterFragEv])
      simp [h0, isOuterFragEv]
  · have hmain : (s.moveToNextPage).2 = [Ev.evMoveToNextPage] := by
      simp only [PEW.moveToNextPage]
      rw [if_neg hle]
    rw [hmain]
    refine ⟨by simp, by simp [isLineEv], by simp [isOuterFragEv]⟩

/-- C4 (amended): the break-and-retry protocol of addLine and addFragment.
When the writer reports that a line (or an engine-level fragment) does not
fit, the engine performs exactly one page break and exactly one retry: the
trace holds exactly one page-move event and exactly two engine-level writer
calls for the content, and nothing is retried further.  But a non-fit
reported by the retry is NOT surfaced: the source discards the retry's
boolean, so after a double failure the call returns normally and the engine
state is exactly the state a bare page break would have produced — the
content is silently dropped. -/
theorem addLine_addFragment_retry (s : PEW) (l : Line) (f : Fragment) (d : Bool)
    (hl : ewAddLine s.ctx l d = none)
    (hf : ewAddFragment s.ctx f false = none) :
    (s.addLine l d).2.count Ev.evMoveToNextPage = 1 ∧
    (s.addLine l d).2.countP isLineEv = 2 ∧
    (ewAddLine (s.moveToNextPage).1.ctx l d = none →
      (s.addLine l d).1 = (s.moveToNextPage).1) ∧
    (s.addFragment f).2.count Ev.evMoveToNextPage = 1 ∧
    (s.addFragment f).2.countP isOuterFragEv = 2 ∧
    (ewAddFragment (s.moveToNextPage).1.ctx f false = none →
      (s.addFragment f).1 = (s.moveToNextPage).1) := by
  obtain ⟨hc1, hc2, hc3⟩ := moveToNextPage_events s
  have hlineEvs : ∀ (r : Bool),
      (Ev.evWriterAddLine false :: (s.moveToNextPage).2 ++ [Ev.evWriterAddLine r]).count
          Ev.evMoveToNextPage = 1 ∧
      (Ev.evWriterAddLine false :: (s.moveToNextPage).2 ++ [Ev.evWriterAddLine r]).countP
          isLineEv = 2 := by
    intro r
    constructor
    · simp [List.count_cons, List.count_append, hc1]
    · simp [List.countP_cons, List.countP_append, hc2, isLineEv]
  have hfragEvs : ∀ (r : Bool),
      (Ev.evWriterAddFragment false false :: (s.moveToNextPage).2 ++
          [Ev.evWriterAddFragment false r]).count Ev.evMoveToNextPage = 1 ∧
      (Ev.evWriterAddFragment false false :: (s.moveToNextPage).2 ++
          [Ev.evWriterAddFragment false r]).countP isOuterFragEv = 2 := by
    intro r
    constructor
    · simp [List.count_cons, List.count_append, hc1]
    · simp [List.countP_cons, List.countP_append, hc3, isOuterFragEv]
  refine ⟨?_, ?_, ?_, ?_, ?_, ?_⟩
  all_goals
    simp only [PEW.addLine, PEW.addFragment, hl, hf]
  · rcases hretry : ewAddLine (s.moveToNextPage).1.ctx l d with _ | c
    · exact (hlineEvs false).1
    · exact (hlineEvs true).1
  · rcases hretry : ewAddLine (s.moveToNextPage).1.ctx l d with _ | c
    · exact (hlineEvs false).2
    · exact (hlineEvs true).2
  · intro hretry
    rw [hretry]
  · rcases hretry : ewAddFragment (s.moveToNextPage).1.ctx f false with _ | c
    · exact (hfragEvs false).1
    · exact (hfragEvs true).1
  · rcases hretry : ewAddFragment (s.moveToNextPage).1.ctx f false with _ | c
    · exact (hfragEvs false).2
    · exact (hfragEvs true).2
  · intro hretry
    rw [hretry]

/-- A one-page context ten units tall with the cursor at the top. -/
def ctxSmall : Context :=
  { page := 0, pages := [Page.mk [] []], x := 0, y := 0, availableHeight := 10 }

/-- An engine over ctxSmall, outside any transaction, with no repeatables. -/
def pewSmall : PEW :=
  { originalContext := ctxSmall, transactionContext := ctxSmall,
    contextIsTransaction := false, transactionLevel := 0, repeatables := [] }

/-- A line one hundred units tall: it fits no page of height ten. -/
def bigLine : Line := ⟨100, 7⟩

/-- A fragment one hundred units tall. -/
def bigFrag : Fragment := ⟨[⟨100, 8⟩], [], 100⟩

/-- C4 counterexample: when the retry also fails, the failure is NOT
surfaced — placing an oversized line leaves the engine in exactly the state
a bare page break produces, the line appears on no page, and the call gives
the caller nothing to distinguish the two; likewise for a fragment. -/
theorem addLine_silent_drop_counterexample :
    (pewSmall.addLine bigLine false).1 = (pewSmall.moveToNextPage).1 ∧
    ((pewSmall.addLine bigLine false).1.ctx.pages.map fun pg => pg.lines.count bigLine).sum = 0 ∧
    (pewSmall.addFragment bigFrag).1 = (pewSmall.moveToNextPage).1 := by
  exact ⟨by decide, by decide, by decide⟩

/-- Witness for C4 at the concrete oversized inputs. -/
theorem addLine_addFragment_retry_witness :
    (pewSmall.addLine bigLine false).2.count Ev.evMoveToNextPage = 1 ∧
    (pewSmall.addLine bigLine false).2.countP isLineEv = 2 ∧
    (ewAddLine (pewSmall.moveToNextPage).1.ctx bigLine false = none →
      (pewSmall.addLine bigLine false).1 = (pewSmall.moveToNextPage).1) ∧
    (pewSmall.addFragment bigFrag).2.count Ev.evMoveToNextPage = 1 ∧
    (pewSmall.addFragment bigFrag).2.countP isOuterFragEv = 2 ∧
    (ewAddFragment (pewSmall.moveToNextPage).1.ctx bigFrag false = none →
      (pewSmall.addFragment bigFrag).1 = (pewSmall.moveToNextPage).1) :=
  addLine_addFragment_retry pewSmall bigLine bigFrag false (by decide) (by decide)

theorem setCtx_isTr (s : PEW) (c : Context) :
    (s.setCtx c).contextIsTransaction = s.contextIsTransaction := by
  simp only [PEW.setCtx]
  by_cases h : s.contextIsTransaction <;> simp [h]

theorem moveToNextPage_isTr (s : PEW) :
    ((s.moveToNextPage).1).contextIsTransaction = s.contextIsTransaction := by
  simp only [PEW.moveToNextPage]
  by_cases hle : (s.ctx.pages.length : ℤ) ≤ s.ctx.page + 1
  · rw [if_pos hle]
    exact setCtx_isTr s _
  · rw [if_neg hle]
    exact setCtx_isTr s _

theorem addFragment_isTr (s : PEW) (f : Fragment) :
    ((s.addFragment f).1).contextIsTransaction = s.contextIsTransaction := by
  simp only [PEW.addFragment]
  cases h1 : ewAddFragment s.ctx f false with
  | some c => exact setCtx_isTr s c
  | none =>
    cases h2 : ewAddFragment (s.moveToNextPage).1.ctx f false with
    | some c =>
      dsimp only
      rw [setCtx_isTr, moveToNextPage_isTr]
    | none =>
      dsimp only
      rw [moveToNextPage_isTr]

/-- C6: transactions are depth-counted, not boolean.  From a
non-transacting engine the sequence begin, begin, commit leaves the engine
still inside a transaction at depth one, with the unbreakable sub-context
(forked from the context at the outermost begin) still the active context,
and emits nothing.  Only a commit that brings the depth to zero restores
the original context; it then packages the sub-context's first page's lines
and vectors, with the sub-context's final cursor height as the declared
height, into a single fragment placed into the original context via
addFragment — or emits nothing when the sub-context's page collection is
empty. -/
theorem unbreakableBlock_transaction (s u : PEW)
    (h : s.transactionLevel = 0)
    (hu1 : u.transactionLevel = 1)
    (hu2 : u.contextIsTransaction = true) :
    ((s.beginUnbreakableBlock.beginUnbreakableBlock.commitUnbreakableBlock).1.transactionLevel = 1 ∧
     (s.beginUnbreakableBlock.beginUnbreakableBlock.commitUnbreakableBlock).1.contextIsTransaction = true ∧
     (s.beginUnbreakableBlock.beginUnbreakableBlock.commitUnbreakableBlock).1.ctx =
       s.ctx.createUnbreakableSubcontext ∧
     (s.beginUnbreakableBlock.beginUnbreakableBlock.commitUnbreakableBlock).2 = []) ∧
    ((u.commitUnbreakableBlock).1.contextIsTransaction = false ∧
     (match u.transactionContext.pages with
      | [] => u.commitUnbreakableBlock =
          ({ u with transactionLevel := 0, contextIsTransaction := false }, [])
      | p :: _ => u.commitUnbreakableBlock =
          PEW.addFragment { u with transactionLevel := 0, contextIsTransaction := false }
            { lines := p.lines, vectors := p.vectors, height := u.transactionContext.y })) := by
  have hb1 : s.beginUnbreakableBlock =
      { s with transactionLevel := s.transactionLevel + 1
               transactionContext := s.ctx.createUnbreakableSubcontext
               contextIsTransaction := true } := by
    simp only [PEW.beginUnbreakableBlock]
    rw [if_pos h]
  have hb2 : s.beginUnbreakableBlock.beginUnbreakableBlock =
      { s with transactionLevel := s.transactionLevel + 1 + 1
               transactionContext := s.ctx.createUnbreakableSubcontext
               contextIsTransaction := true } := by
    rw [hb1]
    simp only [PEW.beginUnbreakableBlock]
    rw [if_neg (by omega)]
  have hb3 : s.beginUnbreakableBlock.beginUnbreakableBlock.commitUnbreakableBlock =
      ({ s with transactionLevel := s.transactionLevel + 1 + 1 - 1
                transactionContext := s.ctx.createUnbreakableSubcontext
                contextIsTransaction := true }, []) := by
    rw [hb2]
    simp only [PEW.commitUnbreakableBlock]
    rw [if_neg (by omega)]
  refine ⟨⟨?_, ?_, ?_, ?_⟩, ?_, ?_⟩
  · rw [hb3]; simp; omega
  · rw [hb3]
  · rw [hb3]
    simp [PEW.ctx]
  · rw [hb3]
  · simp only [PEW.commitUnbreakableBlock]
    rw [if_pos (by omega)]
    cases htc : u.transactionContext.pages with
    | nil => rfl
    | cons p rest =>
      dsimp only
      rw [addFragment_isTr]
  · cases htc : u.transactionContext.pages with
    | nil =>
      simp only [PEW.commitUnbreakableBlock]
      rw [if_pos (by omega), htc]
      have : u.transactionLevel - 1 = 0 := by omega
      simp [this]
    | cons p rest =>
      simp only [PEW.commitUnbreakableBlock]
      rw [if_pos (by omega), htc]
      have : u.transactionLevel - 1 = 0 := by omega
      simp [this]

/-- A sub-context holding one page with one line and final cursor height
five, as an unbreakable block would have accumulated. -/
def ctxSub : Context :=
  { page := 0, pages := [{ lines := [⟨5, 1⟩], vectors := [] }], x := 0, y := 5,
    availableHeight := 10 }

/-- An engine inside a transaction at depth one whose sub-context holds
content. -/
def pewU : PEW :=
  { originalContext := ctxSmall, transactionContext := ctxSub,
    contextIsTransaction := true, transactionLevel := 1, repeatables := [] }

/-- Witness for C6 at concrete inputs: the nested sequence on pewSmall and
the committing engine pewU with a non-empty sub-context. -/
theorem unbreakableBlock_transaction_witness :
    ((pewSmall.beginUnbreakableBlock.beginUnbreakableBlock.commitUnbreakableBlock).1.transactionLevel = 1 ∧
     (pewSmall.beginUnbreakableBlock.beginUnbreakableBlock.commitUnbreakableBlock).1.contextIsTransaction = true ∧
     (pewSmall.beginUnbreakableBlock.beginUnbreakableBlock.commitUnbreakableBlock).1.ctx =
       pewSmall.ctx.createUnbreakableSubcontext ∧
     (pewSmall.beginUnbreakableBlock.beginUnbreakableBlock.commitUnbreakableBlock).2 = []) ∧
    ((pewU.commitUnbreakableBlock).1.contextIsTransaction = false ∧
     (match pewU.transactionContext.pages with
      | [] => pewU.commitUnbreakableBlock =
          ({ pewU with transactionLevel := 0, contextIsTransaction := false }, [])
      | p :: _ => pewU.commitUnbreakableBlock =
          PEW.addFragment { pewU with transactionLevel := 0, contextIsTransaction := false }
            { lines := p.lines, vectors := p.vectors, height := pewU.transactionContext.y })) :=
  unbreakableBlock_transaction pewSmall pewU rfl rfl rfl

/-! ### Idempotence of measurement -/

mutual

/-- A document-definition tree: a tree that does not already carry
node-level width annotations on its table nodes.  Every other annotation is
recomputed from scratch by measurement, but measureTable never writes the
node-level bounds of a table node (it writes them on the inner table
object), so pre-existing node-level bounds on a table node would be carried
through extendMargins a second time; documents produced by users (and the
outputs of measuring them) have none. -/
def cleanN : Node → Bool
  | .strN _ => true
  | .arrN items => cleanL items
  | .columns cols _ _ => cleanL cols
  | .stack items _ _ => cleanL items
  | .ul items _ _ => cleanL items
  | .ol items _ _ => cleanL items
  | .table _ body _ _ _ a => a.minWidth = none && a.maxWidth = none && cleanR body
  | .text _ _ _ => true
  | .canvas _ _ _ => true
  | .bad _ _ => true
termination_by structural n => n

/-- cleanN on every node of a list. -/
def cleanL : List Node → Bool
  | [] => true
  | x :: xs => cleanN x && cleanL xs
termination_by structural xs => xs

/-- cleanN on every cell of a grid. -/
def cleanR : List (List Node) → Bool
  | [] => true
  | row :: rest => cleanL row && cleanR rest
termination_by structural xs => xs

end

theorem cleanL_mem {xs : List Node} (h : cleanL xs = true) {x : Node} (hx : x ∈ xs) :
    cleanN x = true := by
  induction xs with
  | nil => cases hx
  | cons a as ih =>
    simp only [cleanL, Bool.and_eq_true] at h
    rcases List.mem_cons.mp hx with h1 | h1
    · rw [h1]; exact h.1
    · exact ih h.2 h1

theorem cleanR_mem {body : List (List Node)} (h : cleanR body = true)
    {row : List Node} (hr : row ∈ body) : cleanL row = true := by
  induction body with
  | nil => cases hr
  | cons a as ih =>
    simp only [cleanR, Bool.and_eq_true] at h
    rcases List.mem_cons.mp hr with h1 | h1
    · rw [h1]; exact h.1
    · exact ih h.2 h1

theorem getNodeMargin_default (env : Env) : getNodeMargin env {} = none := rfl

theorem setListMarker_setListMarker (x : Node) (mk mk2 : Marker) :
    (x.setListMarker mk).setListMarker mk2 = x.setListMarker mk2 := by
  cases x <;> rfl

theorem measureNodes_length (env : Env) (stk : List String) :
    ∀ xs ys, measureNodes env stk xs = some ys → ys.length = xs.length := by
  intro xs
  induction xs with
  | nil => intro ys h; rw [measureNodes_nil] at h; cases h; rfl
  | cons x rest ih =>
    intro ys h
    rw [measureNodes_cons] at h
    cases h1 : measureNode env stk x with
    | none => rw [h1] at h; cases h
    | some y =>
      rw [h1] at h
      cases h2 : measureNodes env stk rest with
      | none => rw [h2] at h; cases h
      | some ys2 =>
        rw [h2] at h
        cases h
        simp [ih ys2 h2]

theorem measureItems_length (env : Env) (stk : List String) (isOrd : Bool) (gap : GapSize) :
    ∀ xs c ys, measureItems env stk isOrd gap c xs = some ys → ys.length = xs.length := by
  intro xs
  induction xs with
  | nil => intro c ys h; rw [measureItems_nil] at h; cases h; rfl
  | cons x rest ih =>
    intro c ys h
    rw [measureItems_cons] at h
    cases h1 : measureNode env stk x with
    | none => rw [h1] at h; cases h
    | some y =>
      rw [h1] at h
      cases h2 : measureItems env stk isOrd gap (c + 1) rest with
      | none => rw [h2] at h; cases h
      | some ys2 =>
        rw [h2] at h
        cases h
        simp [ih (c + 1) ys2 h2]

theorem measureCells_length (env : Env) (stk : List String) :
    ∀ n xs ys, measureCells env stk n xs = some ys → ys.length = xs.length := by
  intro n xs
  induction xs generalizing n with
  | nil =>
    intro ys h
    cases n with
    | zero => rw [measureCells_zero] at h; cases h; rfl
    | succ k => rw [measureCells_succ_nil] at h; cases h
  | cons x rest ih =>
    intro ys h
    cases n with
    | zero => rw [measureCells_zero] at h; cases h; rfl
    | succ k =>
      rw [measureCells_succ_cons] at h
      cases h1 : measureNode env stk x with
      | none => rw [h1] at h; cases h
      | some y =>
        rw [h1] at h
        cases h2 : measureCells env stk k rest with
        | none => rw [h2] at h; cases h
        | some ys2 =>
          rw [h2] at h
          cases h
          simp [ih k ys2 h2]

theorem finishTable_setListMarker (ws2 : Widths) (cols : Nat) (body2 : List (List Node))
    (p : Props) (a : Ann) (m : Option Quad) (mk : Marker) :
    finishTable ws2 cols body2 p { a with listMarker := some mk } m =
      (finishTable ws2 cols body2 p a m).map (fun y => y.setListMarker mk) := by
  cases m with
  | none =>
    cases ws2 with
    | list wl =>
      simp only [finishTable]
      by_cases hc : cols ≤ wl.length
      · simp [hc, extendW, Node.setListMarker]
      · simp [hc]
    | absent =>
      simp only [finishTable]
      by_cases hz : cols = 0
      · simp [hz, extendW, Node.setListMarker]
      · simp [hz]
    | scalar v =>
      simp only [finishTable]
      by_cases hz : cols = 0
      · simp [hz, extendW, Node.setListMarker]
      · simp [hz]
  | some q =>
    cases ws2 with
    | list wl =>
      simp only [finishTable]
      by_cases hc : cols ≤ wl.length
      · simp [hc, extendW, Node.setListMarker]
      · simp [hc]
    | absent =>
      simp only [finishTable]
      by_cases hz : cols = 0
      · simp [hz, extendW, Node.setListMarker]
      · simp [hz]
    | scalar v =>
      simp only [finishTable]
      by_cases hz : cols = 0
      · simp [hz, extendW, Node.setListMarker]
      · simp [hz]

/-- Measurement commutes with attaching a list marker: the marker
annotation is carried through untouched by every measurement case (only
applicable to the non-shorthand forms, which are the only measured-node
shapes). -/
theorem measure_setListMarker (env : Env) (stk : List String) (x : Node) (mk : Marker)
    (hx : x.isShorthand = false) :
    measureNode env stk (x.setListMarker mk) =
      (measureNode env stk x).map (fun y => y.setListMarker mk) := by
  cases x with
  | strN s => simp [Node.isShorthand] at hx
  | arrN items => simp [Node.isShorthand] at hx
  | columns cols p a =>
    simp only [Node.setListMarker, measureNode_columns]
    cases hn : measureNodes env (pushStyle stk p.style) cols with
    | none => simp
    | some cols2 =>
      cases hm0 : getNodeMargin env p <;> simp [hm0, extendW, Node.setListMarker]
  | stack items p a =>
    simp only [Node.setListMarker, measureNode_stack]
    cases hn : measureNodes env (pushStyle stk p.style) items with
    | none => simp
    | some items2 =>
      cases hm0 : getNodeMargin env p <;> simp [hm0, extendW, Node.setListMarker]
  | ul items p a =>
    simp only [Node.setListMarker, measureNode_ul]
    cases hn : measureItems env (pushStyle stk p.style) false
        (env.sizeOfString (pushStyle stk p.style) "9. ") 1 items with
    | none => simp
    | some items2 =>
      cases hm0 : getNodeMargin env p <;> simp [hm0, extendW, Node.setListMarker]
  | ol items p a =>
    simp only [Node.setListMarker, measureNode_ol]
    cases hn : measureItems env (pushStyle stk p.style) true
        (env.sizeOfString (pushStyle stk p.style) (nines items.length ++ ". ")) 1 items with
    | none => simp
    | some items2 =>
      cases hm0 : getNodeMargin env p <;> simp [hm0, extendW, Node.setListMarker]
  | table ws body tmn tmx p a =>
    simp only [Node.setListMarker, measureNode_table]
    cases hw : extendTableWidths ws body with
    | none => simp [hw]
    | some ws2 =>
      (try rw [hw])
      cases hh : body.head? with
      | none => simp [hh]
      | some row0 =>
        (try rw [hh])
        cases hr : measureRows env (pushStyle stk p.style) row0.length body with
        | none => simp [hr]
        | some body2 =>
          simp only [hr]
          exact finishTable_setListMarker ws2 row0.length body2 p a (getNodeMargin env p) mk
  | text t p a =>
    simp only [Node.setListMarker, measureNode_text]
    cases hm0 : getNodeMargin env p <;> simp [hm0, extendW, Node.setListMarker]
  | canvas vs p a =>
    simp only [Node.setListMarker, measureNode_canvas]
    cases hm0 : getNodeMargin env p <;> simp [hm0, extendW, Node.setListMarker]
  | bad p a => simp [Node.setListMarker, measureNode_bad]

theorem measureNodes_idem (env : Env) (stk : List String) :
    ∀ (xs ys : List Node),
      (∀ x ∈ xs, ∀ m, measureNode env stk x = some m → measureNode env stk m = some m) →
      measureNodes env stk xs = some ys → measureNodes env stk ys = some ys := by
  intro xs
  induction xs with
  | nil => intro ys _ h; rw [measureNodes_nil] at h; cases h; rfl
  | cons x rest ih =>
    intro ys hIH h
    rw [measureNodes_cons] at h
    cases h1 : measureNode env stk x with
    | none => rw [h1] at h; cases h
    | some y =>
      rw [h1] at h
      cases h2 : measureNodes env stk rest with
      | none => rw [h2] at h; cases h
      | some ys2 =>
        rw [h2] at h
        cases h
        rw [measureNodes_cons, hIH x (List.mem_cons_self x rest) y h1,
          ih ys2 (fun z hz => hIH z (List.mem_cons_of_mem x hz)) h2]

theorem measureCells_idem (env : Env) (stk : List String) :
    ∀ (xs : List Node) (n : Nat) (ys : List Node),
      (∀ x ∈ xs, ∀ m, measureNode env stk x = some m → measureNode env stk m = some m) →
      measureCells env stk n xs = some ys → measureCells env stk n ys = some ys := by
  intro xs
  induction xs with
  | nil =>
    intro n ys _ h
    cases n with
    | zero => rw [measureCells_zero] at h; cases h; rfl
    | succ k => rw [measureCells_succ_nil] at h; cases h
  | cons x rest ih =>
    intro n ys hIH h
    cases n with
    | zero => rw [measureCells_zero] at h; cases h; exact measureCells_zero env stk _
    | succ k =>
      rw [measureCells_succ_cons] at h
      cases h1 : measureNode env stk x with
      | none => rw [h1] at h; cases h
      | some y =>
        rw [h1] at h
        cases h2 : measureCells env stk k rest with
        | none => rw [h2] at h; cases h
        | some ys2 =>
          rw [h2] at h
          cases h
          rw [measureCells_succ_cons, hIH x (List.mem_cons_self x rest) y h1,
            ih k ys2 (fun z hz => hIH z (List.mem_cons_of_mem x hz)) h2]

theorem measureRows_idem (env : Env) (stk : List String) (cols : Nat) :
    ∀ (body body2 : List (List Node)),
      (∀ row ∈ body, ∀ c ∈ row, ∀ m, measureNode env stk c = some m → measureNode env stk m = some m) →
      measureRows env stk cols body = some body2 → measureRows env stk cols body2 = some body2 := by
  intro body
  induction body with
  | nil => intro body2 _ h; rw [measureRows_nil] at h; cases h; rfl
  | cons row rest ih =>
    intro body2 hIH h
    rw [measureRows_cons] at h
    cases h1 : measureCells env stk cols row with
    | none => rw [h1] at h; cases h
    | some row2 =>
      rw [h1] at h
      cases h2 : measureRows env stk cols rest with
      | none => rw [h2] at h; cases h
      | some rest2 =>
        rw [h2] at h
        cases h
        rw [measureRows_cons,
          measureCells_idem env stk row cols row2 (hIH row (List.mem_cons_self row rest)) h1,
          ih rest2 (fun r hr => hIH r (List.mem_cons_of_mem row hr)) h2]

theorem measureItems_idem (env : Env) (stk : List String) (isOrd : Bool) (gap : GapSize) :
    ∀ (xs : List Node) (c : Nat) (ys : List Node),
      (∀ x ∈ xs, ∀ m, measureNode env stk x = some m → measureNode env stk m = some m) →
      measureItems env stk isOrd gap c xs = some ys →
      measureItems env stk isOrd gap c ys = some ys := by
  intro xs
  induction xs with
  | nil => intro c ys _ h; rw [measureItems_nil] at h; cases h; rfl
  | cons it rest ih =>
    intro c ys hIH h
    rw [measureItems_cons] at h
    cases h1 : measureNode env stk it with
    | none => rw [h1] at h; cases h
    | some it2 =>
      rw [h1] at h
      cases h2 : measureItems env stk isOrd gap (c + 1) rest with
      | none => rw [h2] at h; cases h
      | some rest2 =>
        rw [h2] at h
        cases h
        have hidem : measureNode env stk it2 = some it2 :=
          hIH it (List.mem_cons_self it rest) it2 h1
        have hrest : measureItems env stk isOrd gap (c + 1) rest2 = some rest2 :=
          ih (c + 1) rest2 (fun z hz => hIH z (List.mem_cons_of_mem it hz)) h2
        have hsh : it2.isShorthand = false := measureNode_not_shorthand env stk it it2 h1
        cases hn : it2.isNestedList with
        | true =>
          simp only [measureItems_cons, hn, if_true, hidem, hrest]
        | false =>
          simp only [measureItems_cons, hn, Bool.false_eq_true, if_false,
            measure_setListMarker, hsh, hidem, Option.map_some, Option.map_some',
            setListMarker_isNestedList,
            setListMarker_propsOf, setListMarker_setListMarker, hrest]

/-- Whether a widths entry is a descriptor object. -/
def WidthEntry.isDesc : WidthEntry → Bool
  | .desc _ _ _ => true
  | .raw _ => false

theorem wrapWidth_isDesc (e : WidthEntry) : (wrapWidth e).isDesc = true := by
  cases e <;> rfl

theorem map_wrapWidth_of_allDesc :
    ∀ l : List WidthEntry, (∀ e ∈ l, e.isDesc = true) → l.map wrapWidth = l := by
  intro l
  induction l with
  | nil => intro _; rfl
  | cons e rest ih =>
    intro h
    have he := h e (List.mem_cons_self e rest)
    cases e with
    | raw v => simp [WidthEntry.isDesc] at he
    | desc v mn mx =>
      simp only [List.map_cons, wrapWidth]
      rw [ih (fun x hx => h x (List.mem_cons_of_mem _ hx))]

theorem extendBroadcast_allDesc (v : String) (body : List (List Node)) (wl : List WidthEntry)
    (h : extendBroadcast v body = some (.list wl)) : ∀ e ∈ wl, e.isDesc = true := by
  cases body with
  | nil => cases h
  | cons row0 rest =>
    simp only [extendBroadcast] at h
    cases h
    intro e he
    rcases List.mem_map.mp he with ⟨e0, _, he0⟩
    rw [← he0]
    exact wrapWidth_isDesc e0

theorem extendTableWidths_allDesc (ws : Widths) (body : List (List Node)) (wl : List WidthEntry)
    (h : extendTableWidths ws body = some (.list wl)) : ∀ e ∈ wl, e.isDesc = true := by
  cases ws with
  | absent =>
    simp only [extendTableWidths] at h
    exact extendBroadcast_allDesc _ _ _ h
  | scalar v =>
    cases v with
    | s sv =>
      simp only [extendTableWidths] at h
      by_cases hv : sv = ""
      · rw [if_pos hv] at h
        exact extendBroadcast_allDesc _ _ _ h
      · rw [if_neg hv] at h
        exact extendBroadcast_allDesc _ _ _ h
    | n nv =>
      simp only [extendTableWidths] at h
      by_cases hn : nv = 0
      · rw [if_pos hn] at h
        exact extendBroadcast_allDesc _ _ _ h
      · rw [if_neg hn] at h
        cases h
  | list l =>
    simp only [extendTableWidths] at h
    cases h
    intro e he
    rcases List.mem_map.mp he with ⟨e0, _, he0⟩
    rw [← he0]
    exact wrapWidth_isDesc e0

theorem updateWE_length (body : List (List Node)) (cols : Nat) :
    ∀ (wl : List WidthEntry) (i : Nat), (updateWE body cols i wl).length = wl.length := by
  intro wl
  induction wl with
  | nil => intro i; rfl
  | cons e rest ih => intro i; simp [updateWE, ih]

theorem updateWE_allDesc (body : List (List Node)) (cols : Nat) :
    ∀ (wl : List WidthEntry) (i : Nat), (∀ e ∈ wl, e.isDesc = true) →
      ∀ e ∈ updateWE body cols i wl, e.isDesc = true := by
  intro wl
  induction wl with
  | nil => intro i _ e he; simp [updateWE] at he
  | cons e0 rest ih =>
    intro i h e he
    simp only [updateWE] at he
    rcases List.mem_cons.mp he with h1 | h1
    · have he0 := h e0 (List.mem_cons_self e0 rest)
      subst h1
      by_cases hi : i < cols
      · cases e0 with
        | raw v => simp [WidthEntry.isDesc] at he0
        | desc v mn mx => simp [hi, WidthEntry.isDesc]
      · simpa [hi] using he0
    · exact ih (i + 1) (fun x hx => h x (List.mem_cons_of_mem e0 hx)) e h1

theorem updateWE_idem (body : List (List Node)) (cols : Nat) :
    ∀ (wl : List WidthEntry) (i : Nat),
      updateWE body cols i (updateWE body cols i wl) = updateWE body cols i wl := by
  intro wl
  induction wl with
  | nil => intro i; rfl
  | cons e rest ih =>
    intro i
    by_cases hi : i < cols
    · cases e with
      | raw v => simp [updateWE, hi, ih]
      | desc v mn mx => simp [updateWE, hi, ih]
    · simp [updateWE, hi, ih]

theorem finishTable_list (wl : List WidthEntry) (cols : Nat) (body2 : List (List Node))
    (p : Props) (a : Ann) (m : Option Quad) :
    finishTable (.list wl) cols body2 p a m =
      (if cols ≤ wl.length then
        some (.table (.list (updateWidthEntries body2 cols wl)) body2
          (tableAgg (fun n => n.annOf.minWidth) body2 cols)
          (tableAgg (fun n => n.annOf.maxWidth) body2 cols)
          p (extendW m { a with margin := m }))
      else none) := rfl

theorem finishTable_scalar (v : WVal) (cols : Nat) (body2 : List (List Node))
    (p : Props) (a : Ann) (m : Option Quad) :
    finishTable (.scalar v) cols body2 p a m =
      (if cols = 0 then
        some (.table (.scalar v) body2 (some 0) (some 0) p (extendW m { a with margin := m }))
      else none) := rfl

theorem extendBroadcast_shape (v : String) (body : List (List Node)) (ws2 : Widths)
    (h : extendBroadcast v body = some ws2) : ∃ wl, ws2 = .list wl := by
  cases body with
  | nil => cases h
  | cons row0 rest =>
    simp only [extendBroadcast] at h
    cases h
    exact ⟨_, rfl⟩

theorem extendTableWidths_shape (ws : Widths) (body : List (List Node)) (ws2 : Widths)
    (h : extendTableWidths ws body = some ws2) :
    (∃ wl, ws2 = .list wl) ∨ (∃ nv, ws2 = .scalar (.n nv) ∧ nv ≠ 0) := by
  cases ws with
  | absent =>
    simp only [extendTableWidths] at h
    exact Or.inl (extendBroadcast_shape _ _ _ h)
  | scalar v =>
    cases v with
    | s sv =>
      simp only [extendTableWidths] at h
      by_cases hv : sv = ""
      · rw [if_pos hv] at h
        exact Or.inl (extendBroadcast_shape _ _ _ h)
      · rw [if_neg hv] at h
        exact Or.inl (extendBroadcast_shape _ _ _ h)
    | n nv =>
      simp only [extendTableWidths] at h
      by_cases hn : nv = 0
      · rw [if_pos hn] at h
        exact Or.inl (extendBroadcast_shape _ _ _ h)
      · rw [if_neg hn] at h
        cases h
        exact Or.inr ⟨nv, rfl, hn⟩
  | list l =>
    simp only [extendTableWidths] at h
    cases h
    exact Or.inl ⟨_, rfl⟩

/-- Idempotence of measurement, by strong induction on the tree size: on a
document-definition tree (no pre-existing node-level table bounds), the
output of measurement is a fixed point of measurement under the same
environment and style stack. -/
theorem measure_idem_aux (env : Env) :
    ∀ (n : Nat) (stk : List String) (t m : Node), sizeOf t = n → cleanN t = true →
      measureNode env stk t = some m → measureNode env stk m = some m := by
  intro n
  induction n using Nat.strong_induction_on with
  | _ n IH =>
    intro stk t m hsz hc hm
    cases t with
    | strN s =>
      rw [measureNode_strN] at hm
      cases hm
      rfl
    | arrN items =>
      rw [measureNode_arrN] at hm
      cases hn : measureNodes env stk items with
      | none => rw [hn] at hm; cases hm
      | some items2 =>
        rw [hn] at hm
        cases hm
        have hc' : cleanL items = true := hc
        have hmem : ∀ x ∈ items, ∀ m2, measureNode env stk x = some m2 →
            measureNode env stk m2 = some m2 := by
          intro x hx m2 hm2
          have h1 : sizeOf x < sizeOf items := List.sizeOf_lt_of_mem hx
          have h2 : sizeOf items < n := by
            rw [← hsz]; first | (simp; done) | (simp; omega)
          exact IH (sizeOf x) (by omega) stk x m2 rfl (cleanL_mem hc' hx) hm2
        have hidem := measureNodes_idem env stk items items2 hmem hn
        rw [measureNode_stack]
        simp only [show ({} : Props).style = none from rfl, show pushStyle stk none = stk from rfl]
        rw [hidem]
        simp [extendW, getNodeMargin_default]
    | stack items p a =>
      rw [measureNode_stack] at hm
      cases hn : measureNodes env (pushStyle stk p.style) items with
      | none => rw [hn] at hm; cases hm
      | some items2 =>
        rw [hn] at hm
        cases hm
        have hc' : cleanL items = true := hc
        have hmem : ∀ x ∈ items, ∀ m2, measureNode env (pushStyle stk p.style) x = some m2 →
            measureNode env (pushStyle stk p.style) m2 = some m2 := by
          intro x hx m2 hm2
          have h1 : sizeOf x < sizeOf items := List.sizeOf_lt_of_mem hx
          have h2 : sizeOf items < n := by
            rw [← hsz]; first | (simp; done) | (simp; omega)
          exact IH (sizeOf x) (by omega) (pushStyle stk p.style) x m2 rfl (cleanL_mem hc' hx) hm2
        have hidem := measureNodes_idem env (pushStyle stk p.style) items items2 hmem hn
        rw [measureNode_stack, hidem]
        cases hm0 : getNodeMargin env p <;> simp [hm0, extendW]
    | columns cols p a =>
      rw [measureNode_columns] at hm
      cases hn : measureNodes env (pushStyle stk p.style) cols with
      | none => rw [hn] at hm; cases hm
      | some cols2 =>
        rw [hn] at hm
        cases hm
        have hc' : cleanL cols = true := hc
        have hmem : ∀ x ∈ cols, ∀ m2, measureNode env (pushStyle stk p.style) x = some m2 →
            measureNode env (pushStyle stk p.style) m2 = some m2 := by
          intro x hx m2 hm2
          have h1 : sizeOf x < sizeOf cols := List.sizeOf_lt_of_mem hx
          have h2 : sizeOf cols < n := by
            rw [← hsz]; first | (simp; done) | (simp; omega)
          exact IH (sizeOf x) (by omega) (pushStyle stk p.style) x m2 rfl (cleanL_mem hc' hx) hm2
        have hidem := measureNodes_idem env (pushStyle stk p.style) cols cols2 hmem hn
        rw [measureNode_columns, hidem]
        cases hm0 : getNodeMargin env p <;> simp [hm0, extendW]
    | ul items p a =>
      rw [measureNode_ul] at hm
      cases hn : measureItems env (pushStyle stk p.style) false
          (env.sizeOfString (pushStyle stk p.style) "9. ") 1 items with
      | none => rw [hn] at hm; cases hm
      | some items2 =>
        rw [hn] at hm
        cases hm
        have hc' : cleanL items = true := hc
        have hmem : ∀ x ∈ items, ∀ m2, measureNode env (pushStyle stk p.style) x = some m2 →
            measureNode env (pushStyle stk p.style) m2 = some m2 := by
          intro x hx m2 hm2
          have h1 : sizeOf x < sizeOf items := List.sizeOf_lt_of_mem hx
          have h2 : sizeOf items < n := by
            rw [← hsz]; first | (simp; done) | (simp; omega)
          exact IH (sizeOf x) (by omega) (pushStyle stk p.style) x m2 rfl (cleanL_mem hc' hx) hm2
        have hidem := measureItems_idem env (pushStyle stk p.style) false
          (env.sizeOfString (pushStyle stk p.style) "9. ") items 1 items2 hmem hn
        rw [measureNode_ul, hidem]
        cases hm0 : getNodeMargin env p <;> simp [hm0, extendW]
    | ol items p a =>
      rw [measureNode_ol] at hm
      cases hn : measureItems env (pushStyle stk p.style) true
          (env.sizeOfString (pushStyle stk p.style) (nines items.length ++ ". ")) 1 items with
      | none => rw [hn] at hm; cases hm
      | some items2 =>
        rw [hn] at hm
        cases hm
        have hc' : cleanL items = true := hc
        have hmem : ∀ x ∈ items, ∀ m2, measureNode env (pushStyle stk p.style) x = some m2 →
            measureNode env (pushStyle stk p.style) m2 = some m2 := by
          intro x hx m2 hm2
          have h1 : sizeOf x < sizeOf items := List.sizeOf_lt_of_mem hx
          have h2 : sizeOf items < n := by
            rw [← hsz]; first | (simp; done) | (simp; omega)
          exact IH (sizeOf x) (by omega) (pushStyle stk p.style) x m2 rfl (cleanL_mem hc' hx) hm2
        have hidem := measureItems_idem env (pushStyle stk p.style) true
          (env.sizeOfString (pushStyle stk p.style) (nines items.length ++ ". ")) items 1 items2 hmem hn
        have hlen : items2.length = items.length :=
          measureItems_length env (pushStyle stk p.style) true _ items 1 items2 hn
        rw [measureNode_ol, hlen, hidem]
        cases hm0 : getNodeMargin env p <;> simp [hm0, extendW]
    | text t p a =>
      rw [measureNode_text] at hm
      cases hm
      rw [measureNode_text]
      cases hm0 : getNodeMargin env p <;> simp [hm0, extendW]
    | canvas vs p a =>
      rw [measureNode_canvas] at hm
      cases hm
      rw [measureNode_canvas]
      cases hm0 : getNodeMargin env p <;> simp [hm0, extendW]
    | bad p a =>
      rw [measureNode_bad] at hm
      cases hm
    | table ws body tmn tmx p a =>
      have hcp : (a.minWidth = none ∧ a.maxWidth = none) ∧ cleanR body = true := by
        have hc' : (decide (a.minWidth = none) && decide (a.maxWidth = none) && cleanR body) = true := hc
        simp only [Bool.and_eq_true, decide_eq_true_eq] at hc'
        exact ⟨⟨hc'.1.1, hc'.1.2⟩, hc'.2⟩
      rw [measureNode_table] at hm
      cases body with
      | nil =>
        cases hw : extendTableWidths ws [] with
        | none => rw [hw] at hm; cases hm
        | some ws2 => rw [hw] at hm; dsimp only at hm; cases hm
      | cons row0 brest =>
        cases hw : extendTableWidths ws (row0 :: brest) with
        | none => rw [hw] at hm; cases hm
        | some ws2 =>
          rw [hw] at hm
          simp only [List.head?] at hm
          cases hr : measureRows env (pushStyle stk p.style) row0.length (row0 :: brest) with
          | none => rw [hr] at hm; cases hm
          | some body2 =>
            rw [hr] at hm
            dsimp only at hm
            have hmem : ∀ row ∈ (row0 :: brest), ∀ c ∈ row, ∀ m2,
                measureNode env (pushStyle stk p.style) c = some m2 →
                measureNode env (pushStyle stk p.style) m2 = some m2 := by
              intro row hrow c hcell m2 hm2
              have h1 : sizeOf c < sizeOf row := List.sizeOf_lt_of_mem hcell
              have h2 : sizeOf row < sizeOf (row0 :: brest) := List.sizeOf_lt_of_mem hrow
              have h3 : sizeOf (row0 :: brest) < n := by
                rw [← hsz]; first | (simp; done) | (simp; omega)
              exact IH (sizeOf c) (by omega) (pushStyle stk p.style) c m2 rfl
                (cleanL_mem (cleanR_mem hcp.2 hrow) hcell) hm2
            have hrowsIdem := measureRows_idem env (pushStyle stk p.style) row0.length
              (row0 :: brest) body2 hmem hr
            rw [measureRows_cons] at hr
            cases hcells : measureCells env (pushStyle stk p.style) row0.length row0 with
            | none => rw [hcells] at hr; cases hr
            | some row02 =>
              rw [hcells] at hr
              cases hrest : measureRows env (pushStyle stk p.style) row0.length brest with
              | none => rw [hrest] at hr; cases hr
              | some rest2 =>
                rw [hrest] at hr
                cases hr
                have hlen2 : row02.length = row0.length :=
                  measureCells_length env (pushStyle stk p.style) row0.length row0 row02 hcells
                rcases hcp.1 with ⟨hmn, hmx⟩
                rcases extendTableWidths_shape ws (row0 :: brest) ws2 hw with ⟨wl, rfl⟩ | ⟨nv, rfl, hnv⟩
                · rw [finishTable_list] at hm
                  by_cases hcle : row0.length ≤ wl.length
                  · rw [if_pos hcle] at hm
                    cases hm
                    have hallDesc := extendTableWidths_allDesc ws (row0 :: brest) wl hw
                    have hallDesc2 := updateWE_allDesc (row02 :: rest2) row0.length wl 0 hallDesc
                    rw [measureNode_table]
                    have hw2 : extendTableWidths
                        (.list (updateWidthEntries (row02 :: rest2) row0.length wl))
                        (row02 :: rest2) =
                        some (.list (updateWidthEntries (row02 :: rest2) row0.length wl)) := by
                      rw [show extendTableWidths
                          (.list (updateWidthEntries (row02 :: rest2) row0.length wl))
                          (row02 :: rest2) =
                          some (.list ((updateWidthEntries (row02 :: rest2) row0.length wl).map wrapWidth))
                        from rfl]
                      rw [map_wrapWidth_of_allDesc _ (by
                        simpa only [updateWidthEntries] using hallDesc2)]
                    rw [hw2]
                    simp only [List.head?]
                    rw [hlen2, hrowsIdem]
                    dsimp only
                    rw [finishTable_list]
                    simp only [updateWidthEntries, updateWE_length]
                    rw [if_pos hcle, updateWE_idem]
                    cases hm0 : getNodeMargin env p <;>
                      simp [hm0, extendW, hmn, hmx, jsAdd]
                  · rw [if_neg hcle] at hm; cases hm
                · rw [finishTable_scalar] at hm
                  by_cases hz : row0.length = 0
                  · rw [if_pos hz] at hm
                    cases hm
                    rw [measureNode_table]
                    rw [show extendTableWidths (.scalar (.n nv)) (row02 :: rest2) =
                        some (.scalar (.n nv)) by simp only [extendTableWidths]; rw [if_neg hnv]]
                    simp only [List.head?]
                    rw [hlen2, hrowsIdem]
                    dsimp only
                    rw [finishTable_scalar]
                    rw [if_pos hz]
                    cases hm0 : getNodeMargin env p <;>
                      simp [hm0, extendW, hmn, hmx, jsAdd]
                  · rw [if_neg hz] at hm; cases hm

/-- C8: measurement is idempotent.  For every document-definition tree (one
that does not already carry node-level width annotations on table nodes)
and every fixed environment (style dictionary and text measurer), measuring
the tree and then measuring the returned, already annotated tree again
returns the annotated tree itself unchanged — in particular every node's
recomputed minWidth and maxWidth are identical to the first pass's, margins
are not accumulated a second time, and table width descriptors are not
re-wrapped. -/
theorem measureDocument_idempotent (env : Env) (t m : Node)
    (hc : cleanN t = true) (hm : measureDocument env t = some m) :
    measureDocument env m = some m :=
  measure_idem_aux env (sizeOf t) [] t m rfl hc hm

/-- The measured form of docC1 under envT. -/
def docC1measured : Node :=
  .stack
    [.table (.list [.desc (.s "auto") (some 1) (some 1)])
      [[.text "a" {} { margin := none, inlines := some "a", minWidth := some 1, maxWidth := some 1 }]]
      (some 1) (some 1) {} { margin := none }]
    {} { margin := none, minWidth := none, maxWidth := none }

/-- Witness for C8 at a concrete input: re-measuring the measured form of
the stack-over-table document returns it unchanged. -/
theorem measureDocument_idempotent_witness :
    measureDocument envT docC1measured = some docC1measured :=
  measureDocument_idempotent envT docC1 docC1measured rfl rfl

end Pdf
